import Mathlib

/-!
# Verification of the MATLABfcnscrape function-name scraping pipeline

Shallow embedding of `src/MATLABfcnscrape.py` and `src/cli.py`
(StackOverflowMATLABchat/MATLABfcnscrape), together with proofs about the
function-name filter, the combiner, the orchestration loop and the CLI
validation.

Strings are modelled by Lean `String` (a list of characters); Python regular
expressions are unfolded into explicit character-list scans, each documented
at its definition.  JSON artifacts are modelled by the inductive `JVal`; a
release directory is a list of file-name/content pairs in enumeration order.
-/

/-! ## Character classes and Python string primitives -/

/-- Whitespace recognized by Python `str.strip()`:
space, tab, newline, carriage return, vertical tab, form feed. -/
def isPySpace (c : Char) : Bool :=
  c = ' ' || c = '\t' || c = '\n' || c = '\x0d' || c = '\x0b' || c = '\x0c'

/-- Python `str.strip()` on a character list: drop leading and trailing whitespace. -/
def pyStripChars (l : List Char) : List Char :=
  ((l.dropWhile isPySpace).reverse.dropWhile isPySpace).reverse

/-- Python `str.strip()`. -/
def pyStrip (s : String) : String := ⟨pyStripChars s.data⟩

/-- The character class `[A-Za-z0-9,.]` allowed inside a bracketed group. -/
def isGroupChar (c : Char) : Bool :=
  ('A' ≤ c && c ≤ 'Z') || ('a' ≤ c && c ≤ 'z') || ('0' ≤ c && c ≤ '9') ||
    c = ',' || c = '.'

/-- The opening-bracket class of the strip pattern. -/
def isOpenBracket (c : Char) : Bool := c = '[' || c = '(' || c = '{'

/-- The closing-bracket class of the strip pattern. -/
def isCloseBracket (c : Char) : Bool := c = ']' || c = ')' || c = '}'

/-- Word characters matched by the pattern atom backslash-w on these ASCII
candidate strings: letters, digits and the underscore. -/
def isWordChar (c : Char) : Bool := c.isAlphanum || c = '_'

/-- Match the tail of the bracket-strip pattern at the head of `l`, where the
opening bracket has already been consumed: one or more `[A-Za-z0-9,.]`
characters followed by a closing bracket.  Returns the remainder of the input
after a successful match.  Because the interior class contains no bracket,
the greedy interior run cannot backtrack into a different successful match: a
match exists exactly when the maximal interior run is nonempty and the next
character is a closing bracket. -/
def matchBracketGroup (l : List Char) : Option (List Char) :=
  match l.span isGroupChar with
  | (run, rest) =>
    if run.isEmpty then none
    else
      match rest with
      | c :: tail => if isCloseBracket c then some tail else none
      | [] => none

/-- One left-to-right pass of
`re.sub(r"[\[\(\{][A-Za-z0-9,.]+[\]\)\}]", "", function_name)`:
at each position the engine tries the pattern; on a match the matched text is
deleted and scanning resumes after it, otherwise the character is kept.
`fuel` bounds the number of scanning steps; every step consumes at least one
input character, so the input length (supplied by `stripBracketGroups`) is
always enough and the fuel-exhausted branch is unreachable. -/
def stripBracketGroupsGo : Nat → List Char → List Char
  | 0, l => l
  | _ + 1, [] => []
  | fuel + 1, c :: rest =>
    if isOpenBracket c then
      match matchBracketGroup rest with
      | some tail => stripBracketGroupsGo fuel tail
      | none => c :: stripBracketGroupsGo fuel rest
    else c :: stripBracketGroupsGo fuel rest

/-- The substitution `re.sub(r"[\[\(\{][A-Za-z0-9,.]+[\]\)\}]", "", function_name)`. -/
def stripBracketGroups (s : String) : String :=
  ⟨stripBracketGroupsGo s.data.length s.data⟩

/-- Python `str.split(",")` on a character list.  Always returns at least one piece;
adjacent commas and trailing commas produce empty pieces, as in Python. -/
def splitCommaChars : List Char → List (List Char)
  | [] => [[]]
  | c :: rest =>
    if c = ',' then [] :: splitCommaChars rest
    else
      match splitCommaChars rest with
      | piece :: pieces => (c :: piece) :: pieces
      | [] => [[c]]

/-- The split `function_name.split(",")`. -/
def splitComma (s : String) : List String := (splitCommaChars s.data).map String.mk

/-- Because `re.findall(r"^\w+", s)` keeps only a match anchored at the start of the
string, so the result is the leading maximal word-character run (possibly
empty, in which case `findall` returned no match). -/
def leadingWord (s : String) : String := ⟨s.data.takeWhile isWordChar⟩

/-! ## The function-name filter (`filter_functions`) -/

/-- Whether `re.findall(r"[%:]", function_name)` is nonempty: the candidate contains a
percent sign or a colon. -/
def hasForbiddenChar (s : String) : Bool :=
  s.data.any (fun c => c = '%' || c = ':')

/-- Whether `re.match(r"^ocv", function_name)` succeeds: the candidate starts with the
literal, case-sensitive characters `ocv`. -/
def startsWithOcv (s : String) : Bool := ['o', 'c', 'v'].isPrefixOf s.data

/-- The test `"," in function_name`. -/
def hasComma (s : String) : Bool := s.data.contains ','

/-- The test `"." in function_name`. -/
def hasPeriod (s : String) : Bool := s.data.contains '.'

/-- The body of the `for function_name in function_list` loop of
`filter_functions`: the entries this candidate appends to
`filtered_functions`.  The three rejection gates run on the raw candidate;
survivors are bracket-stripped and trimmed, then exactly one of the three
modification branches fires. -/
def processCandidate (function_blacklist : List String) (function_name : String) :
    List String :=
  if hasForbiddenChar function_name then []
  else if startsWithOcv function_name then []
  else if function_name ∈ function_blacklist then []
  else
    let stripped := pyStrip (stripBracketGroups function_name)
    if hasComma stripped then (splitComma stripped).map pyStrip
    else if hasPeriod stripped then [stripped]
    else
      let w := leadingWord stripped
      if w = "" then [] else [w]

/-- A candidate is dropped by one of the three rejection gates of
`filter_functions`, all of which inspect the raw, un-stripped candidate:
forbidden characters, the `ocv` prefix test, exact blacklist membership. -/
def gateRejected (function_blacklist : List String) (function_name : String) : Prop :=
  hasForbiddenChar function_name = true ∨ startsWithOcv function_name = true ∨
    function_name ∈ function_blacklist

/-- Joining character-list pieces back with commas; inverse view of
`splitCommaChars`. -/
def joinCommaChars : List (List Char) → List Char
  | [] => []
  | [p] => p
  | p :: rest => p ++ ',' :: joinCommaChars rest

/-- The value of the local `filtered_functions` accumulator when the loop in
`filter_functions` finishes. -/
def filteredFunctions (function_list function_blacklist : List String) :
    List String :=
  function_list.foldl (fun acc fn => acc ++ processCandidate function_blacklist fn) []

/-- The function `filter_functions` itself.  The Python function builds the local list
`filtered_functions` (modelled by `filteredFunctions`) but its body ends
without a `return` statement, so every call evaluates to `None`. -/
def filter_functions (function_list function_blacklist : List String) :
    Option (List String) :=
  let _filtered_functions := filteredFunctions function_list function_blacklist
  none

/-! ## CLI release validation (`cli.py`) -/

/-- The release pattern `R\d{4}[ab]` tested at the start of a character list,
with trailing characters ignored — the semantics of Python `re.match`. -/
def releaseHeadMatch : List Char → Bool
  | c0 :: d1 :: d2 :: d3 :: d4 :: x :: _ =>
    c0 = 'R' && d1.isDigit && d2.isDigit && d3.isDigit && d4.isDigit &&
      (x = 'a' || x = 'b')
  | _ => false

/-- The release pattern `R\d{4}[ab]` tested against the whole character
list. -/
def releaseExactMatch : List Char → Bool
  | [c0, d1, d2, d3, d4, x] =>
    c0 = 'R' && d1.isDigit && d2.isDigit && d3.isDigit && d4.isDigit &&
      (x = 'a' || x = 'b')
  | _ => false

/-- The check `is_valid_release`, that is `bool(re.match(r"R\d{4}[ab]", release))`.  Python
`re.match` anchors only at the start of the string, so the test succeeds
whenever the pattern matches a prefix of `release`; trailing characters are
not examined. -/
def is_valid_release (release : String) : Bool :=
  releaseHeadMatch release.data

/-- Modelled from the spec: the release lexical pattern read as the spec words
it - letter `R`, four digits, then `a` or `b`, and nothing else (a whole-string
match).  Used to compare the spec's reading against `is_valid_release`. -/
def specReleasePattern (release : String) : Bool :=
  releaseExactMatch release.data

/-- The externally observable steps the CLI `run` command can take after
validation; both touch the network. -/
inductive CliAction where
  | scrapeToolboxUrls (release : String)
  | scrapingPipeline (release : String)
  deriving DecidableEq

/-- The `run` command of `cli.py`: an invalid release raises `ValueError`
before anything else happens; otherwise the URL cache is refreshed when absent
or forced, and the scraping pipeline runs.  The returned list records the
network-touching steps in order; the error branch performs none. -/
def cli_run (cacheExists force_new_cache : Bool) (release : String) :
    Except String (List CliAction) :=
  if !is_valid_release release then
    .error ("Invalid release specified: " ++ release)
  else
    .ok ((if !cacheExists || force_new_cache then [CliAction.scrapeToolboxUrls release] else [])
      ++ [CliAction.scrapingPipeline release])

/-! ## JSON artifacts and release directories -/

/-- JSON values as they occur in this repository's artifacts: `null` (what
`json.dump` writes for the value `filter_functions` returns), strings, arrays
of strings (function lists), and objects (the URL cache's nested mappings). -/
inductive JVal where
  | null : JVal
  | str : String → JVal
  | strArr : List String → JVal
  | obj : List (String × JVal) → JVal

/-- Python dict assignment `d[k] = v`: updates an existing key in place,
otherwise appends the new binding.  Also models rewriting a file inside a
directory listing. -/
def pyDictInsert (d : List (String × α)) (k : String) (v : α) : List (String × α) :=
  match d with
  | [] => [(k, v)]
  | (k1, v1) :: rest =>
    if k1 = k then (k, v) :: rest else (k1, v1) :: pyDictInsert rest k v

/-- A release directory under `JSONout/<release>`: file names (all carrying
the `.JSON` suffix, so all are seen by `glob("*.JSON")`) to parsed contents,
in enumeration order. -/
abbrev Dir := List (String × JVal)

/-- Read one file of a release directory. -/
def dirGet (d : Dir) (name : String) : Option JVal :=
  (d.find? (fun f => f.1 = name)).map Prod.snd

/-- The file name of the URL-cache artifact (`URL_CACHE_FILENAME`). -/
def urlCacheName : String := "_url_cache.JSON"

/-- The loop of the dict comprehension in `load_URL_dict`: for each grouping
in order, insert all of its key/value items.  A grouping value that is not an
object raises (`.items()` on a non-dict). -/
def load_URL_dict_go :
    List (String × JVal) → List (String × JVal) → Except String (List (String × JVal))
  | [], acc => Except.ok acc
  | g :: rest, acc =>
    match g.2 with
    | .obj items =>
      load_URL_dict_go rest (items.foldl (fun d kv => pyDictInsert d kv.1 kv.2) acc)
    | _ => Except.error "AttributeError: items"

/-- The loader `load_URL_dict`: reads the URL cache and denests it one level,
`{k: v for d in (tmp[g] for g in tmp.keys()) for k, v in d.items()}`.
The file must hold an object whose values are themselves objects; anything
else raises (modelled as `Except.error`). -/
def load_URL_dict (cache : JVal) : Except String (List (String × JVal)) :=
  match cache with
  | .obj groups => load_URL_dict_go groups []
  | _ => Except.error "AttributeError: keys"

/-! ## The combiner (`concatenate_fcns`)

Python's `set` of strings is modelled canonically as a duplicate-free list
sorted by a fixed total order on strings (character-wise code-point order), so
that set operations are deterministic functions. -/

/-- Strict code-point lexicographic order on character lists. -/
def charListLt : List Char → List Char → Bool
  | [], [] => false
  | [], _ :: _ => true
  | _ :: _, [] => false
  | a :: as, b :: bs => if a < b then true else if b < a then false else charListLt as bs

/-- Strict lexicographic order on strings, the canonical order of the set
model. -/
def strLt (a b : String) : Bool := charListLt a.data b.data

/-- Python `set.add`: insert a string into a canonically sorted duplicate-free
list. -/
def setInsert (x : String) : List String → List String
  | [] => [x]
  | y :: rest =>
    if strLt x y then x :: y :: rest
    else if x = y then y :: rest
    else y :: setInsert x rest

/-- The strings a JSON value contributes when passed to `set.update`: the
elements of an array of strings, the keys of an object, the single characters
of a bare string.  `null` contributes nothing (it raises instead, see
`setUpdate`). -/
def jvalElems : JVal → List String
  | .strArr items => items
  | .obj kvs => kvs.map Prod.fst
  | .str txt => txt.data.map (fun c => String.mk [c])
  | .null => []

/-- The call `fcn_set.update(json.load(fID))`: iterables extend the set; loading `null`
gives `None`, which is not iterable and raises `TypeError`. -/
def setUpdate (s : List String) (v : JVal) : Except String (List String) :=
  match v with
  | .null => Except.error "TypeError: NoneType object is not iterable"
  | v => Except.ok ((jvalElems v).foldl (fun acc x => setInsert x acc) s)

/-- The accumulation loop of `concatenate_fcns` over `glob("*.JSON")`: every
file except the release's URL cache is loaded into the set.  Stops at the
first raising file, like the Python loop. -/
def buildFcnSet : List (String × JVal) → List String → Except String (List String)
  | [], s => Except.ok s
  | f :: rest, s =>
    if f.1 = urlCacheName then buildFcnSet rest s
    else
      match setUpdate s f.2 with
      | .ok s1 => buildFcnSet rest s1
      | .error e => Except.error e

/-- The order of `sorted(fcn_set, key=str.lower)`: case-insensitive ascending order, keyed
by lowercasing. -/
def lowerLe (a b : String) : Prop :=
  charListLt (b.data.map Char.toLower) (a.data.map Char.toLower) = false

instance : DecidableRel lowerLe := fun a b => by
  unfold lowerLe
  infer_instance

/-- The combiner `concatenate_fcns`: build the union set of every non-cache artifact in
the release directory, then write it, sorted case-insensitively, as
`_combined.JSON` (overwriting any previous combined artifact).  A raising
file propagates and nothing is written. -/
def concatenate_fcns (d : Dir) : Except String Dir :=
  match buildFcnSet d [] with
  | .ok fcn_set =>
    Except.ok (pyDictInsert d "_combined.JSON" (.strArr (List.insertionSort lowerLe fcn_set)))
  | .error e => Except.error e

/-! ### The combiner with an explicit set-iteration order

In CPython, `sorted(fcn_set, key=str.lower)` is a stable sort over the set's
ITERATION order, and hash randomization makes that order an arbitrary
duplicate-free enumeration of the union set, not reproducible across process
runs.  `concatenate_fcns` above fixes the enumeration canonically; the
following definitions expose the enumeration as a parameter, so that the
dependence of the combined artifact's bytes on it can be stated. -/

/-- The lowercased sort key `str.lower` of a string, as a character list. -/
def lowerKey (s : String) : List Char := s.data.map Char.toLower

/-- Stable insertion step for Python's `sorted(xs, key=str.lower)`: the new
element is placed before the first element whose key is strictly greater,
hence after every element whose key is less than or equal — elements with
equal keys keep their relative order. -/
def insertStableLower (x : String) : List String → List String
  | [] => [x]
  | y :: rest =>
    if charListLt (lowerKey x) (lowerKey y) then x :: y :: rest
    else y :: insertStableLower x rest

/-- Python's `sorted(xs, key=str.lower)`: a stable sort of the enumeration
`xs` by the lowercased key. -/
def pySortLower (xs : List String) : List String :=
  xs.foldl (fun acc x => insertStableLower x acc) []

/-- The combiner as CPython executes it, with the set-iteration order made
explicit: `it` is the duplicate-free enumeration the interpreter happens to
produce for `fcn_set` (any permutation of the canonical set listing is
admissible), and the combined artifact is its stable lower-keyed sort. -/
def concatenate_fcns_enum (d : Dir) (it : List String) : Except String Dir :=
  match buildFcnSet d [] with
  | .ok _ =>
    Except.ok (pyDictInsert d "_combined.JSON" (.strArr (pySortLower it)))
  | .error e => Except.error e

/-! ## The scraping pipeline (`scraping_pipeline`) -/

/-- The outcome of fetching one toolbox's documentation URL, as seen through
`scrape_doc_page`: a raw candidate list, or one of the two transport-level
exceptions the orchestrator catches (`httpx.TimeoutException`,
`httpx.ConnectError`). -/
inductive FetchOutcome where
  | ok (raw : List String)
  | timeout
  | connectError

/-- What `write_Toolbox_JSON` serializes: `json.dump` of the value returned by
`filter_functions` (which is always `None`, see `filter_functions`). -/
def jsonOut : Option (List String) → JVal
  | none => .null
  | some l => .strArr l

/-- The `for toolbox, url in toolbox_dict.items()` loop of
`scraping_pipeline`.  A transport error is caught, logged and the loop
continues; an empty raw list is logged and nothing is written; otherwise the
filtered list is written to `<toolbox>.JSON`.  A URL value that is not a
string reaches `httpx.get` and raises an uncaught `TypeError`, aborting the
loop: the second component reports such an abort. -/
def pipelineLoop (fetch : String → FetchOutcome) (function_blacklist : List String) :
    List (String × JVal) → Dir → Dir × Option String
  | [], d => (d, none)
  | (toolbox, url) :: rest, d =>
    match url with
    | .str u =>
      match fetch u with
      | .ok raw =>
        if raw.isEmpty then pipelineLoop fetch function_blacklist rest d
        else
          pipelineLoop fetch function_blacklist rest
            (pyDictInsert d (toolbox ++ ".JSON")
              (jsonOut (filter_functions raw function_blacklist)))
      | .timeout => pipelineLoop fetch function_blacklist rest d
      | .connectError => pipelineLoop fetch function_blacklist rest d
    | _ => (d, some "TypeError: httpx.get on a non-string URL")

/-- The result of one pipeline run: the directory afterwards, and whether the
combiner was invoked (the `else` clause of the `for` loop, which runs exactly
when the loop finishes without an uncaught exception). -/
structure PipelineResult where
  dir : Dir
  combinerInvoked : Bool

/-- The orchestrator `scraping_pipeline`: load the URL cache (a missing or malformed cache is
fatal and nothing runs), iterate the toolboxes, then invoke the combiner
unconditionally via the loop's `else` clause.  A combiner that raises leaves
the directory as the loop left it. -/
def scraping_pipeline (fetch : String → FetchOutcome) (function_blacklist : List String)
    (d : Dir) : PipelineResult :=
  match dirGet d urlCacheName with
  | none => ⟨d, false⟩
  | some cache =>
    match load_URL_dict cache with
    | .error _ => ⟨d, false⟩
    | .ok toolbox_dict =>
      match pipelineLoop fetch function_blacklist toolbox_dict d with
      | (d1, some _) => ⟨d1, false⟩
      | (d1, none) =>
        match concatenate_fcns d1 with
        | .ok d2 => ⟨d2, true⟩
        | .error _ => ⟨d1, true⟩

/-! ### Helper views of the loop, used by the proofs -/

/-- Apply a list of file writes to a directory, in order. -/
def applyWrites (d : Dir) (ws : List (String × JVal)) : Dir :=
  ws.foldl (fun acc w => pyDictInsert acc w.1 w.2) d

/-- The writes `pipelineLoop` performs, which depend only on the fetch
oracle, the blacklist and the toolbox list - never on the directory.  The
list stops at the first toolbox whose URL value is not a string. -/
def loopWrites (fetch : String → FetchOutcome) (function_blacklist : List String) :
    List (String × JVal) → List (String × JVal)
  | [] => []
  | (toolbox, url) :: rest =>
    match url with
    | .str u =>
      match fetch u with
      | .ok raw =>
        if raw.isEmpty then loopWrites fetch function_blacklist rest
        else
          (toolbox ++ ".JSON", jsonOut (filter_functions raw function_blacklist)) ::
            loopWrites fetch function_blacklist rest
      | .timeout => loopWrites fetch function_blacklist rest
      | .connectError => loopWrites fetch function_blacklist rest
    | _ => []

/-- Whether the loop aborts with an uncaught exception (a non-string URL
value), again independent of the directory. -/
def loopCrash : List (String × JVal) → Option String
  | [] => none
  | (_, url) :: rest =>
    match url with
    | .str _ => loopCrash rest
    | _ => some "TypeError: httpx.get on a non-string URL"

/-! ## The structured-data extraction strategy (modelled from the spec)

`scrape_doc_page` in src dispatches between only two strategies (static HTML
for `LEGACY_FN_LIST_RELEASES`, rendered DOM otherwise); the mid-generation
JSON-API strategy the spec describes is not part of src, so it and the
three-way format classification are modelled from the spec here. -/

/-- Modelled from the spec: a terminal entry of the structured-data response,
an object carrying a `name` field. -/
structure SDLeafItem where
  name : String

/-- Modelled from the spec: the `category` field of the JSON API response,
either a single `leaf-items` list or `grouped-leaf-items`, each group with
its own `leaf-items`. -/
inductive SDCategory where
  | leafItems (items : List SDLeafItem)
  | groupedLeafItems (groups : List (List SDLeafItem))

/-- Modelled from the spec: flatten either response shape into one sequence
of `name` fields. -/
def extract_structured : SDCategory → List String
  | .leafItems items => items.map SDLeafItem.name
  | .groupedLeafItems groups => (groups.map (fun g => g.map SDLeafItem.name)).flatten

/-- The release sets driving format dispatch.  `LEGACY_FN_LIST_RELEASES` is
the module-level constant of src. -/
def LEGACY_FN_LIST_RELEASES : List String :=
  ["R2018a", "R2017b", "R2017a", "R2016b", "R2016a", "R2015b"]

/-- Modelled from the spec: the three documentation-format generations, one
per extraction strategy. -/
inductive DocFormat where
  | staticMarkup
  | structuredData
  | renderedDom
  deriving DecidableEq

/-- Modelled from the spec: static classification of a release into its
format generation.  The mid-generation membership set is not recorded in src
and is a parameter; classification consults only release membership, never
document content. -/
def classifyRelease (structuredReleases : List String) (release : String) : DocFormat :=
  if release ∈ LEGACY_FN_LIST_RELEASES then .staticMarkup
  else if release ∈ structuredReleases then .structuredData
  else .renderedDom

/-- A fetched document, carrying the material each of the three strategies
would read: the text of `code.function` elements, the structured endpoint's
`category`, and the anchor texts of the rendered rows. -/
structure FetchedDocument where
  htmlCodeTexts : List String
  jsonCategory : SDCategory
  domAnchorTexts : List String

/-- Modelled from the spec: the raw extractor with the three-strategy
dispatch.  The strategy is chosen from the release classification alone. -/
def extract_raw (structuredReleases : List String) (release : String)
    (doc : FetchedDocument) : List String :=
  match classifyRelease structuredReleases release with
  | .staticMarkup => doc.htmlCodeTexts
  | .structuredData => extract_structured doc.jsonCategory
  | .renderedDom => doc.domAnchorTexts

/-! # Theorems -/

/-! ## Decomposition lemmas for the filter loop -/

theorem filteredFunctions_foldl (function_blacklist : List String) :
    ∀ (l : List String) (acc : List String),
      l.foldl (fun a fn => a ++ processCandidate function_blacklist fn) acc =
        acc ++ filteredFunctions l function_blacklist := by
  intro l
  induction l with
  | nil => intro acc; simp [filteredFunctions]
  | cons c rest ih =>
    intro acc
    have h1 : filteredFunctions (c :: rest) function_blacklist =
        processCandidate function_blacklist c ++ filteredFunctions rest function_blacklist := by
      show List.foldl _ [] (c :: rest) = _
      rw [List.foldl_cons, ih, List.nil_append]
    rw [List.foldl_cons, ih, h1, List.append_assoc]

theorem filteredFunctions_cons (function_blacklist : List String) (c : String)
    (l : List String) :
    filteredFunctions (c :: l) function_blacklist =
      processCandidate function_blacklist c ++ filteredFunctions l function_blacklist := by
  show List.foldl _ [] (c :: l) = _
  rw [List.foldl_cons, filteredFunctions_foldl, List.nil_append]

theorem filteredFunctions_append (function_blacklist l1 l2 : List String) :
    filteredFunctions (l1 ++ l2) function_blacklist =
      filteredFunctions l1 function_blacklist ++ filteredFunctions l2 function_blacklist := by
  show List.foldl _ [] (l1 ++ l2) = _
  rw [List.foldl_append, filteredFunctions_foldl]
  rfl

theorem filteredFunctions_singleton (function_blacklist : List String) (c : String) :
    filteredFunctions [c] function_blacklist = processCandidate function_blacklist c := by
  rw [filteredFunctions_cons]
  simp [filteredFunctions]

theorem processCandidate_gate (function_blacklist : List String) (c : String)
    (h : gateRejected function_blacklist c) :
    processCandidate function_blacklist c = [] := by
  rcases h with h | h | h
  · simp [processCandidate, h]
  · simp [processCandidate, h]
  · simp [processCandidate, h]

theorem processCandidate_comma (function_blacklist : List String) (c : String)
    (h1 : hasForbiddenChar c = false) (h2 : startsWithOcv c = false)
    (h3 : c ∉ function_blacklist)
    (h4 : hasComma (pyStrip (stripBracketGroups c)) = true) :
    processCandidate function_blacklist c =
      (splitComma (pyStrip (stripBracketGroups c))).map pyStrip := by
  simp [processCandidate, h1, h2, h3, h4]

theorem splitCommaChars_ne_nil (l : List Char) : splitCommaChars l ≠ [] := by
  cases l with
  | nil => simp [splitCommaChars]
  | cons c rest =>
    simp only [splitCommaChars]
    by_cases h : c = ','
    · simp [h]
    · simp only [h, if_false]
      cases splitCommaChars rest with
      | nil => simp
      | cons p ps => simp

theorem splitCommaChars_join (l : List Char) :
    joinCommaChars (splitCommaChars l) = l := by
  induction l with
  | nil => rfl
  | cons c rest ih =>
    simp only [splitCommaChars]
    by_cases h : c = ','
    · subst h
      simp only [if_pos rfl]
      cases hs : splitCommaChars rest with
      | nil => exact absurd hs (splitCommaChars_ne_nil rest)
      | cons p ps =>
        rw [hs] at ih
        show joinCommaChars ([] :: p :: ps) = ',' :: rest
        simp only [joinCommaChars, List.nil_append]
        rw [ih]
    · simp only [h, if_false]
      cases hs : splitCommaChars rest with
      | nil => exact absurd hs (splitCommaChars_ne_nil rest)
      | cons p ps =>
        rw [hs] at ih
        cases ps with
        | nil =>
          show joinCommaChars [c :: p] = c :: rest
          simp only [joinCommaChars]
          simp only [joinCommaChars] at ih
          rw [ih]
        | cons q qs =>
          show joinCommaChars ((c :: p) :: q :: qs) = c :: rest
          simp only [joinCommaChars, List.cons_append]
          simp only [joinCommaChars] at ih
          rw [← ih]

/-! ## C1, C3, C4, C10: the filter claims -/

/-- C1: the spec's contract says `filter_functions` returns the sequence of
normalized names, with `["foo (opcda)"] ↦ ["foo"]` and
`["someFunction extra descriptive text"] ↦ ["someFunction"]`.  The code is a
slip against its own annotation (`-> t.List[str]`) and its caller (which
serializes the result as a toolbox function list): the loop computes exactly
the specified list — recorded here via `filteredFunctions` — but the function
has no `return` statement, so both calls actually return `None`. -/
theorem C1_filter_functions_missing_return :
    filter_functions ["foo (opcda)"] [] = none ∧
    filter_functions ["someFunction extra descriptive text"] [] = none ∧
    filteredFunctions ["foo (opcda)"] [] = ["foo"] ∧
    filteredFunctions ["someFunction extra descriptive text"] [] = ["someFunction"] :=
  ⟨rfl, rfl, by decide, by decide⟩

/-- C3 counterexample: the claim says each NON-empty piece, and no empty
piece, of a comma-split candidate is emitted.  The loop extends the output
with every trimmed piece: the candidate `"plot,"` splits into `"plot"` and
`""`, and the empty piece is emitted too. -/
theorem C3_counterexample_empty_piece_emitted :
    filteredFunctions ["plot,"] [] = ["plot", ""] ∧
    "" ∈ filteredFunctions ["plot,"] [] :=
  ⟨by decide, by decide⟩

/-- C3 (amended): for every candidate that survives the rejection gates and
contains a comma after bracket-stripping and trimming, the candidate is split
on commas and every trimmed piece — empty pieces included — is emitted, in the
pieces' original order, at the candidate's position in the output; joining the
pieces back with commas restores the stripped candidate. -/
theorem C3_comma_expansion (pre post function_blacklist : List String) (c : String)
    (h1 : hasForbiddenChar c = false) (h2 : startsWithOcv c = false)
    (h3 : c ∉ function_blacklist)
    (h4 : hasComma (pyStrip (stripBracketGroups c)) = true) :
    filteredFunctions (pre ++ c :: post) function_blacklist =
      filteredFunctions pre function_blacklist
        ++ (splitComma (pyStrip (stripBracketGroups c))).map pyStrip
        ++ filteredFunctions post function_blacklist ∧
    joinCommaChars (splitCommaChars (pyStrip (stripBracketGroups c)).data) =
      (pyStrip (stripBracketGroups c)).data := by
  constructor
  · rw [filteredFunctions_append, filteredFunctions_cons,
      processCandidate_comma function_blacklist c h1 h2 h3 h4, List.append_assoc]
  · exact splitCommaChars_join _

/-- Witness for C3 (amended) at the spec's own example candidate
`"plot, scatter, bar"`, placed between two other candidates. -/
theorem C3_comma_expansion_witness :
    (filteredFunctions (["obj.method"] ++ "plot, scatter, bar" :: ["baz"]) [] =
      filteredFunctions ["obj.method"] []
        ++ (splitComma (pyStrip (stripBracketGroups "plot, scatter, bar"))).map pyStrip
        ++ filteredFunctions ["baz"] [] ∧
    joinCommaChars (splitCommaChars (pyStrip (stripBracketGroups "plot, scatter, bar")).data) =
      (pyStrip (stripBracketGroups "plot, scatter, bar")).data) ∧
    filteredFunctions ["obj.method", "plot, scatter, bar", "baz"] [] =
      ["obj.method", "plot", "scatter", "bar", "baz"] :=
  ⟨C3_comma_expansion ["obj.method"] ["baz"] [] "plot, scatter, bar"
      (by decide) (by decide) (by decide) (by decide),
    by decide⟩

/-- C4: the three rejection gates are evaluated on the raw, un-stripped
candidate.  A gate match on the raw string drops the candidate; a blacklist
entry suppresses only candidates exactly equal to it (so processing with
blacklist `[e]` equals processing with an empty blacklist for every other
candidate, and `"foo"` does not suppress `"foobar"`); and bracket-stripping
cannot create a gate match: `"foo(a)"` strips to the blacklisted name `"foo"`
yet is still emitted. -/
theorem C4_gates_on_raw_string :
    (∀ (function_blacklist : List String) (c : String),
      gateRejected function_blacklist c → filteredFunctions [c] function_blacklist = []) ∧
    (∀ (e c : String), c ≠ e → filteredFunctions [c] [e] = filteredFunctions [c] []) ∧
    filteredFunctions ["foobar"] ["foo"] = ["foobar"] ∧
    filteredFunctions ["foo(a)"] ["foo"] = ["foo"] := by
  refine ⟨?_, ?_, by decide, by decide⟩
  · intro function_blacklist c h
    rw [filteredFunctions_singleton, processCandidate_gate function_blacklist c h]
  · intro e c h
    rw [filteredFunctions_singleton, filteredFunctions_singleton]
    simp only [processCandidate, List.mem_singleton, h, if_false]
    simp

/-- Witness for C4 at concrete inputs: a colon-bearing candidate is gate
rejected, and blacklisting `"foo"` leaves `"foobar"` untouched. -/
theorem C4_gates_on_raw_string_witness :
    filteredFunctions ["bad%name"] [] = [] ∧
    filteredFunctions ["foobar"] ["foo"] = filteredFunctions ["foobar"] [] :=
  ⟨C4_gates_on_raw_string.1 [] "bad%name" (Or.inl (by decide)),
    C4_gates_on_raw_string.2.1 "foo" "foobar" (by decide)⟩

/-- C10: the leading-word extraction of the final branch is anchored at the
start of the candidate (`re.findall(r"^\w+", ...)`): a surviving candidate
whose stripped, trimmed form contains no comma and no period, and whose first
character is not a word character, contributes nothing to the output — even
when a word token occurs later in the string. -/
theorem C10_leading_word_anchored (pre post function_blacklist : List String)
    (c m : String) (hm : m = pyStrip (stripBracketGroups c))
    (h1 : hasForbiddenChar c = false) (h2 : startsWithOcv c = false)
    (h3 : c ∉ function_blacklist)
    (h4 : hasComma m = false) (h5 : hasPeriod m = false)
    (h6 : ∀ ch, m.data.head? = some ch → isWordChar ch = false) :
    filteredFunctions (pre ++ c :: post) function_blacklist =
      filteredFunctions pre function_blacklist ++ filteredFunctions post function_blacklist := by
  have hw : leadingWord m = "" := by
    unfold leadingWord
    cases hd : m.data with
    | nil => simp [hd]
    | cons ch t =>
      have hw2 := h6 ch (by rw [hd]; rfl)
      rw [List.takeWhile_cons, hw2]
      rfl
  have hp : processCandidate function_blacklist c = [] := by
    simp only [processCandidate, h1, h2, h3, if_false, Bool.false_eq_true]
    rw [← hm]
    simp [h4, h5, hw]
  rw [filteredFunctions_append, filteredFunctions_cons, hp, List.nil_append]

/-- Witness for C10: `"-foo bar"` starts with a non-word character; the word
token `foo` later in the string is not extracted. -/
theorem C10_leading_word_anchored_witness :
    filteredFunctions (["plot"] ++ "-foo bar" :: ["scatter"]) [] =
      filteredFunctions ["plot"] [] ++ filteredFunctions ["scatter"] [] ∧
    filteredFunctions ["plot", "-foo bar", "scatter"] [] = ["plot", "scatter"] :=
  ⟨C10_leading_word_anchored ["plot"] ["scatter"] [] "-foo bar" "-foo bar"
      (by decide) (by decide) (by decide) (by decide) (by decide) (by decide)
      (by intro ch h; cases h; decide),
    by decide⟩

/-! ## C7: CLI release validation -/

/-- C7 counterexample: the claim says a release string is accepted if and
only if it is exactly `R`, four digits, `a|b` and nothing else.  `re.match`
is anchored only at the start, so `"R2020bXYZ"` — which does not satisfy the
whole-string pattern — is accepted, and `run` proceeds to its
network-touching steps. -/
theorem C7_counterexample_trailing_text_accepted :
    specReleasePattern "R2020bXYZ" = false ∧
    is_valid_release "R2020bXYZ" = true ∧
    cli_run true false "R2020bXYZ" =
      .ok [CliAction.scrapingPipeline "R2020bXYZ"] :=
  ⟨by decide, by decide, rfl⟩

/-- C7 (amended): `run` accepts a release string iff the lexical pattern
(letter `R`, four digits, then `a` or `b`) matches a PREFIX of it; in
particular every string satisfying the spec's whole-string pattern, and every
extension of such a string, is accepted.  Every rejected string is refused
with a `ValueError` carrying the release, before any network-touching
action. -/
theorem C7_prefix_validation :
    (∀ r : String, is_valid_release r = true ↔
      ∃ d1 d2 d3 d4 x rest, r.data = 'R' :: d1 :: d2 :: d3 :: d4 :: x :: rest ∧
        d1.isDigit = true ∧ d2.isDigit = true ∧ d3.isDigit = true ∧
        d4.isDigit = true ∧ (x = 'a' ∨ x = 'b')) ∧
    (∀ s t : String, specReleasePattern s = true →
      is_valid_release (s ++ t) = true) ∧
    (∀ cacheExists force r, is_valid_release r = false →
      cli_run cacheExists force r = .error ("Invalid release specified: " ++ r)) ∧
    (∀ cacheExists force r acts, cli_run cacheExists force r = .ok acts →
      is_valid_release r = true) := by
  have hshape : ∀ r : String, is_valid_release r = true ↔
      ∃ d1 d2 d3 d4 x rest, r.data = 'R' :: d1 :: d2 :: d3 :: d4 :: x :: rest ∧
        d1.isDigit = true ∧ d2.isDigit = true ∧ d3.isDigit = true ∧
        d4.isDigit = true ∧ (x = 'a' ∨ x = 'b') := by
    intro r
    constructor
    · intro h
      unfold is_valid_release at h
      rcases hd : r.data with _ | ⟨c0, _ | ⟨d1, _ | ⟨d2, _ | ⟨d3, _ | ⟨d4, _ | ⟨x, rest⟩⟩⟩⟩⟩⟩ <;>
        rw [hd] at h
      iterate 6 exact absurd h Bool.false_ne_true
      rw [releaseHeadMatch] at h
      simp only [Bool.and_eq_true, Bool.or_eq_true, decide_eq_true_eq] at h
      obtain ⟨⟨⟨⟨⟨hc0, h1⟩, h2⟩, h3⟩, h4⟩, h5⟩ := h
      exact ⟨d1, d2, d3, d4, x, rest, by rw [hc0], h1, h2, h3, h4, h5⟩
    · rintro ⟨d1, d2, d3, d4, x, rest, hd, h1, h2, h3, h4, h5⟩
      unfold is_valid_release
      rw [hd, releaseHeadMatch]
      simp [h1, h2, h3, h4]
      rcases h5 with h5 | h5 <;> simp [h5]
  refine ⟨hshape, ?_, ?_, ?_⟩
  · intro s t h
    unfold specReleasePattern at h
    rcases hd : s.data with _ | ⟨c0, _ | ⟨d1, _ | ⟨d2, _ | ⟨d3, _ | ⟨d4, _ | ⟨x, rest⟩⟩⟩⟩⟩⟩ <;>
      rw [hd] at h
    iterate 6 exact absurd h Bool.false_ne_true
    rcases rest with _ | ⟨y, ys⟩
    · rw [releaseExactMatch] at h
      simp only [Bool.and_eq_true, Bool.or_eq_true, decide_eq_true_eq] at h
      obtain ⟨⟨⟨⟨⟨hc0, h1⟩, h2⟩, h3⟩, h4⟩, h5⟩ := h
      rw [hshape]
      refine ⟨d1, d2, d3, d4, x, t.data, ?_, h1, h2, h3, h4, h5⟩
      rw [String.data_append, hd, hc0]
      rfl
    · exact absurd h Bool.false_ne_true
  · intro cacheExists force r h
    unfold cli_run
    rw [h]
    rfl
  · intro cacheExists force r acts h
    by_cases hv : is_valid_release r = true
    · exact hv
    · exfalso
      unfold cli_run at h
      rw [Bool.not_eq_true] at hv
      rw [hv] at h
      simp at h

/-- Witness for C7 (amended): `"R2020b"` satisfies the spec pattern, so both
it and `"R2020b_tail"` are accepted; `"bogus"` is rejected with a
`ValueError` and no actions. -/
theorem C7_prefix_validation_witness :
    is_valid_release ("R2020b" ++ "_tail") = true ∧
    cli_run true false "bogus" = .error ("Invalid release specified: " ++ "bogus") :=
  ⟨C7_prefix_validation.2.1 "R2020b" "_tail" (by decide),
    C7_prefix_validation.2.2.1 true false "bogus" (by decide)⟩

/-! ## C8: URL-map denesting -/

theorem pyDictInsert_not_mem_eq {α : Type} (d : List (String × α)) (k : String) (v : α)
    (h : k ∉ d.map Prod.fst) : pyDictInsert d k v = d ++ [(k, v)] := by
  induction d with
  | nil => rfl
  | cons f rest ih =>
    obtain ⟨k1, v1⟩ := f
    simp only [List.map_cons, List.mem_cons] at h
    push_neg at h
    obtain ⟨h1, h2⟩ := h
    simp only [pyDictInsert, if_neg (Ne.symm h1), List.cons_append]
    rw [ih h2]

theorem pyDictFold_append (items : List (String × JVal)) :
    ∀ acc : List (String × JVal),
      (∀ k ∈ items.map Prod.fst, k ∉ acc.map Prod.fst) →
      (items.map Prod.fst).Nodup →
      items.foldl (fun d kv => pyDictInsert d kv.1 kv.2) acc = acc ++ items := by
  induction items with
  | nil => intro acc _ _; simp
  | cons kv rest ih =>
    intro acc hdisj hnd
    simp only [List.map_cons, List.nodup_cons] at hnd
    obtain ⟨hk, hndrest⟩ := hnd
    have hkacc : kv.1 ∉ acc.map Prod.fst := by
      exact hdisj kv.1 (by simp)
    rw [List.foldl_cons, pyDictInsert_not_mem_eq acc kv.1 kv.2 hkacc]
    rw [ih (acc ++ [kv]) ?_ hndrest]
    · simp
    · intro k hkrest
      simp only [List.map_append, List.mem_append]
      push_neg
      constructor
      · exact hdisj k (by simp [hkrest])
      · simp only [List.map_cons, List.map_nil, List.mem_singleton]
        intro hcon
        rw [← Prod.mk.eta (p := kv)] at hcon
        simp at hcon
        exact hk (hcon ▸ hkrest)

theorem load_URL_dict_go_flat (groups : List (String × List (String × JVal))) :
    ∀ acc : List (String × JVal),
      (∀ k ∈ ((groups.map Prod.snd).flatten).map Prod.fst, k ∉ acc.map Prod.fst) →
      (((groups.map Prod.snd).flatten).map Prod.fst).Nodup →
      load_URL_dict_go (groups.map (fun g => (g.1, JVal.obj g.2))) acc =
        Except.ok (acc ++ (groups.map Prod.snd).flatten) := by
  induction groups with
  | nil => intro acc _ _; simp [load_URL_dict_go]
  | cons g rest ih =>
    intro acc hdisj hnd
    simp only [List.map_cons, List.flatten_cons, List.map_append, List.nodup_append] at hnd
    obtain ⟨hnd1, hnd2, hdisj12⟩ := hnd
    simp only [List.map_cons, load_URL_dict_go]
    rw [pyDictFold_append g.2 acc ?_ hnd1]
    · rw [ih (acc ++ g.2) ?_ hnd2]
      · rw [List.flatten_cons, ← List.append_assoc]
      · intro k hk
        simp only [List.map_append, List.mem_append]
        push_neg
        refine ⟨?_, ?_⟩
        · apply hdisj
          simp only [List.map_cons, List.flatten_cons, List.map_append, List.mem_append]
          exact Or.inr hk
        · intro hcon
          exact hdisj12 hcon hk
    · intro k hk
      apply hdisj
      simp only [List.map_cons, List.flatten_cons, List.map_append, List.mem_append]
      exact Or.inl hk

/-- C8 counterexample: `load_URL_dict` denests exactly one grouping level.
On a one-grouping-level artifact it yields the flat toolbox/URL pairs, but on
a two-grouping-level artifact holding the same leaf content it yields pairs
whose values are still objects — not the same flat pairs the claim
predicts. -/
theorem C8_counterexample_two_grouping_levels :
    load_URL_dict (JVal.obj [("Family", .obj [("Toolbox", .str "u")])]) =
      .ok [("Toolbox", JVal.str "u")] ∧
    load_URL_dict (JVal.obj [("Family", .obj [("Group", .obj [("Toolbox", .str "u")])])]) ≠
      load_URL_dict (JVal.obj [("Family", .obj [("Toolbox", .str "u")])]) := by
  refine ⟨rfl, fun h => ?_⟩
  have h2 := congrArg
    (fun e => match e with
      | Except.ok l => l.map Prod.fst
      | Except.error _ => ([] : List String)) h
  exact (by decide : (["Group"] : List String) ≠ ["Toolbox"]) h2

/-- C8 (amended): `load_URL_dict` denests exactly one grouping level.  For
every artifact with one grouping level (an object of objects) whose leaf keys
are pairwise distinct, the loaded mapping is exactly the concatenation of the
groups' leaf key/value pairs, whatever the leaf values are; deeper nesting is
not flattened further (see the counterexample). -/
theorem C8_single_level_denesting (groups : List (String × List (String × JVal)))
    (hnd : (((groups.map Prod.snd).flatten).map Prod.fst).Nodup) :
    load_URL_dict (JVal.obj (groups.map (fun g => (g.1, JVal.obj g.2)))) =
      Except.ok ((groups.map Prod.snd).flatten) := by
  show load_URL_dict_go (groups.map (fun g => (g.1, JVal.obj g.2))) [] = _
  rw [load_URL_dict_go_flat groups [] (by simp) hnd]
  rfl

/-- Witness for C8 (amended) on a two-group, two-toolbox artifact. -/
theorem C8_single_level_denesting_witness :
    load_URL_dict (JVal.obj [("Base", .obj [("MATLAB", .str "m")]),
                             ("Math", .obj [("Stats", .str "s")])]) =
      Except.ok [("MATLAB", JVal.str "m"), ("Stats", JVal.str "s")] :=
  C8_single_level_denesting
    [("Base", [("MATLAB", JVal.str "m")]), ("Math", [("Stats", JVal.str "s")])]
    (by decide)

/-! ## C2: the structured-data strategy and static dispatch -/

/-- C2 (spec-modelled): the structured-data strategy flattens both response
shapes into one sequence of `name` fields — the flat case yields the
leaf-items' names, the grouped case the concatenation of each group's names —
and the choice among the three strategies is a function of the release's
static classification alone: the classification is decided purely by release
membership in the generation sets (the document is not consulted), and for a
mid-generation release the raw extraction is exactly the structured-data
extraction of the JSON response. -/
theorem C2_structured_strategy :
    (∀ items, extract_structured (SDCategory.leafItems items) =
      items.map SDLeafItem.name) ∧
    (∀ groups, extract_structured (SDCategory.groupedLeafItems groups) =
      (groups.map (fun g => g.map SDLeafItem.name)).flatten) ∧
    (∀ structuredReleases release,
      (classifyRelease structuredReleases release = DocFormat.staticMarkup ↔
        release ∈ LEGACY_FN_LIST_RELEASES) ∧
      (classifyRelease structuredReleases release = DocFormat.structuredData ↔
        release ∉ LEGACY_FN_LIST_RELEASES ∧ release ∈ structuredReleases) ∧
      (classifyRelease structuredReleases release = DocFormat.renderedDom ↔
        release ∉ LEGACY_FN_LIST_RELEASES ∧ release ∉ structuredReleases)) ∧
    (∀ structuredReleases release doc,
      release ∉ LEGACY_FN_LIST_RELEASES → release ∈ structuredReleases →
      extract_raw structuredReleases release doc =
        extract_structured doc.jsonCategory) := by
  refine ⟨fun items => rfl, fun groups => rfl, ?_, ?_⟩
  · intro structuredReleases release
    unfold classifyRelease
    by_cases h1 : release ∈ LEGACY_FN_LIST_RELEASES <;>
      by_cases h2 : release ∈ structuredReleases <;>
      simp [h1, h2]
  · intro structuredReleases release doc h1 h2
    unfold extract_raw classifyRelease
    simp [h1, h2]

/-- Witness for C2 at a concrete mid-generation release and a concrete
grouped response. -/
theorem C2_structured_strategy_witness :
    extract_raw ["R2019a"] "R2019a"
      ⟨["htmlOnly"],
        SDCategory.groupedLeafItems [[⟨"plot"⟩, ⟨"scatter"⟩], [⟨"bar"⟩]],
        ["domOnly"]⟩ = ["plot", "scatter", "bar"] := by
  rw [C2_structured_strategy.2.2.2 ["R2019a"] "R2019a" _ (by decide) (by decide)]
  rfl

/-! ## C6: transport failures never abort the batch -/

theorem applyWrites_nil (d : Dir) : applyWrites d [] = d := rfl

theorem applyWrites_cons (d : Dir) (w : String × JVal) (ws : List (String × JVal)) :
    applyWrites d (w :: ws) = applyWrites (pyDictInsert d w.1 w.2) ws := rfl

/-- The loop equals its write list applied to the directory, paired with its
crash status; writes and crash status depend only on the fetch oracle, the
blacklist and the toolbox list. -/
theorem pipelineLoop_eq (fetch : String → FetchOutcome) (bl : List String) :
    ∀ (tbs : List (String × JVal)) (d : Dir),
      pipelineLoop fetch bl tbs d =
        (applyWrites d (loopWrites fetch bl tbs), loopCrash tbs) := by
  intro tbs
  induction tbs with
  | nil => intro d; rfl
  | cons p rest ih =>
    intro d
    obtain ⟨tb, url⟩ := p
    cases url with
    | str u =>
      cases hf : fetch u with
      | ok raw =>
        by_cases hr : raw.isEmpty
        · simp [pipelineLoop, loopWrites, loopCrash, hf, hr, ih]
        · simp [pipelineLoop, loopWrites, loopCrash, hf, hr, ih, applyWrites_cons]
      | timeout => simp only [pipelineLoop, loopWrites, loopCrash, hf, ih]
      | connectError => simp only [pipelineLoop, loopWrites, loopCrash, hf, ih]
    | null => rfl
    | strArr a => rfl
    | obj o => rfl

theorem loopCrash_none_of_str (tbs : List (String × JVal))
    (h : ∀ p ∈ tbs, ∃ u, p.2 = JVal.str u) : loopCrash tbs = none := by
  induction tbs with
  | nil => rfl
  | cons p rest ih =>
    obtain ⟨tb, url⟩ := p
    obtain ⟨u, hu⟩ := h (tb, url) (by simp)
    simp only at hu
    subst hu
    show loopCrash ((tb, JVal.str u) :: rest) = none
    rw [loopCrash]
    exact ih (fun q hq => h q (by simp [hq]))

/-- C6: a toolbox whose fetch raises a transport-level error (timeout or
connection failure) is logged and skipped — the loop continues exactly as if
that toolbox were absent, so it contributes nothing and later toolboxes are
unaffected — and whenever the URL cache loads (and every URL value is a
string, as the cache writer produces), the combiner is invoked after the
loop, regardless of how many toolboxes failed. -/
theorem C6_transport_failures_skipped :
    (∀ fetch function_blacklist toolbox u rest d,
      fetch u = FetchOutcome.timeout ∨ fetch u = FetchOutcome.connectError →
      pipelineLoop fetch function_blacklist ((toolbox, JVal.str u) :: rest) d =
        pipelineLoop fetch function_blacklist rest d) ∧
    (∀ fetch function_blacklist d cache toolbox_dict,
      dirGet d urlCacheName = some cache →
      load_URL_dict cache = Except.ok toolbox_dict →
      (∀ p ∈ toolbox_dict, ∃ u, p.2 = JVal.str u) →
      (scraping_pipeline fetch function_blacklist d).combinerInvoked = true) := by
  constructor
  · intro fetch bl toolbox u rest d h
    rcases h with h | h <;> simp only [pipelineLoop, h]
  · intro fetch bl d cache tbs hget hload hstr
    have hcrash : loopCrash tbs = none := loopCrash_none_of_str tbs hstr
    simp only [scraping_pipeline, hget, hload, pipelineLoop_eq, hcrash]
    cases hcc : concatenate_fcns (applyWrites d (loopWrites fetch bl tbs)) <;>
      simp [hcc]

/-- Witness for C6: a timed-out toolbox vanishes from the loop, and a
pipeline over one good and one timing-out toolbox still invokes the
combiner. -/
theorem C6_transport_failures_skipped_witness :
    pipelineLoop (fun _ => FetchOutcome.timeout) [] [("Tb", JVal.str "down")] [] =
      pipelineLoop (fun _ => FetchOutcome.timeout) [] [] [] ∧
    (scraping_pipeline
      (fun u => if u = "down" then FetchOutcome.timeout else FetchOutcome.ok [])
      []
      [("_url_cache.JSON",
        JVal.obj [("Fam", JVal.obj [("Tb", JVal.str "good"),
                                    ("Td", JVal.str "down")])])]).combinerInvoked =
      true := by
  constructor
  · exact C6_transport_failures_skipped.1 (fun _ => FetchOutcome.timeout) [] "Tb" "down"
      [] [] (Or.inl rfl)
  · refine C6_transport_failures_skipped.2
      (fun u => if u = "down" then FetchOutcome.timeout else FetchOutcome.ok [])
      [] _ (JVal.obj [("Fam", JVal.obj [("Tb", JVal.str "good"), ("Td", JVal.str "down")])])
      [("Tb", JVal.str "good"), ("Td", JVal.str "down")] rfl rfl ?_
    intro p hp
    simp only [List.mem_cons, List.mem_singleton] at hp
    rcases hp with h | h | h
    · exact ⟨"good", by rw [h]⟩
    · exact ⟨"down", by rw [h]⟩
    · exact absurd h (by simp)

/-! ## Order facts for the canonical string-set model -/

theorem charListLt_irrefl : ∀ l : List Char, charListLt l l = false := by
  intro l
  induction l with
  | nil => rfl
  | cons a as ih =>
    simp only [charListLt, lt_irrefl a, if_false, ih]

theorem charListLt_asymm : ∀ a b : List Char,
    charListLt a b = true → charListLt b a = false := by
  intro a
  induction a with
  | nil =>
    intro b h
    cases b with
    | nil => rfl
    | cons y ys => rfl
  | cons x xs ih =>
    intro b h
    cases b with
    | nil => exact absurd h (by simp [charListLt])
    | cons y ys =>
      simp only [charListLt] at h ⊢
      by_cases hxy : x < y
      · have hyx : ¬ y < x := lt_asymm hxy
        simp [hxy, hyx, lt_irrefl] at h ⊢
      · by_cases hyx : y < x
        · simp [hxy, hyx] at h
        · simp only [hxy, hyx, if_false] at h ⊢
          exact ih ys h

theorem charListLt_trans : ∀ a b c : List Char,
    charListLt a b = true → charListLt b c = true → charListLt a c = true := by
  intro a
  induction a with
  | nil =>
    intro b c hab hbc
    cases b with
    | nil => exact hbc
    | cons y ys =>
      cases c with
      | nil => exact absurd hbc (by simp [charListLt])
      | cons z zs => rfl
  | cons x xs ih =>
    intro b c hab hbc
    cases b with
    | nil => exact absurd hab (by simp [charListLt])
    | cons y ys =>
      cases c with
      | nil => exact absurd hbc (by simp [charListLt])
      | cons z zs =>
        simp only [charListLt] at hab hbc ⊢
        by_cases hxy : x < y <;> by_cases hyz : y < z
        · simp [lt_trans hxy hyz]
        · by_cases hzy : z < y
          · -- y > z, so from hbc : contradiction
            simp [hyz, hzy] at hbc
          · have hyez : y = z := le_antisymm (not_lt.mp hzy) (not_lt.mp hyz)
            subst hyez
            simp [hxy]
        · by_cases hyx : y < x
          · simp [hxy, hyx] at hab
          · have hxey : x = y := le_antisymm (not_lt.mp hyx) (not_lt.mp hxy)
            subst hxey
            simp [hyz]
        · by_cases hyx : y < x
          · simp [hxy, hyx] at hab
          · have hxey : x = y := le_antisymm (not_lt.mp hyx) (not_lt.mp hxy)
            subst hxey
            by_cases hzx : z < x
            · simp [hyz, hzx] at hbc
            · have hxez : x = z := le_antisymm (not_lt.mp hzx) (not_lt.mp hyz)
              subst hxez
              simp only [if_neg (lt_irrefl x)] at hab hbc ⊢
              exact ih ys zs hab hbc

theorem charListLt_eq_of_not : ∀ a b : List Char,
    charListLt a b = false → charListLt b a = false → a = b := by
  intro a
  induction a with
  | nil =>
    intro b hab _
    cases b with
    | nil => rfl
    | cons y ys => exact absurd hab (by simp [charListLt])
  | cons x xs ih =>
    intro b hab hba
    cases b with
    | nil => exact absurd hba (by simp [charListLt])
    | cons y ys =>
      simp only [charListLt] at hab hba
      by_cases hxy : x < y
      · simp [hxy] at hab
      · by_cases hyx : y < x
        · simp [hxy, hyx] at hba
        · have hxey : x = y := le_antisymm (not_lt.mp hyx) (not_lt.mp hxy)
          subst hxey
          simp only [if_neg (lt_irrefl x)] at hab hba
          rw [ih ys hab hba]

theorem strLt_irrefl (s : String) : strLt s s = false := charListLt_irrefl s.data

theorem strLt_asymm {a b : String} (h : strLt a b = true) : strLt b a = false :=
  charListLt_asymm a.data b.data h

theorem strLt_trans {a b c : String} (hab : strLt a b = true) (hbc : strLt b c = true) :
    strLt a c = true :=
  charListLt_trans a.data b.data c.data hab hbc

theorem strLt_eq_of_not {a b : String} (hab : strLt a b = false)
    (hba : strLt b a = false) : a = b :=
  String.ext (charListLt_eq_of_not a.data b.data hab hba)

theorem strLt_ne {a b : String} (h : strLt a b = true) : a ≠ b := by
  intro he
  subst he
  rw [strLt_irrefl] at h
  exact Bool.false_ne_true h

theorem mem_setInsert (x y : String) : ∀ l : List String,
    (y ∈ setInsert x l ↔ y = x ∨ y ∈ l) := by
  intro l
  induction l with
  | nil => simp [setInsert]
  | cons h t ih =>
    cases h1 : strLt x h with
    | true =>
      rw [setInsert, if_pos h1]
      simp only [List.mem_cons]
      try tauto
    | false =>
      rw [setInsert, if_neg (by simp [h1])]
      by_cases h2 : x = h
      · rw [if_pos h2]
        subst h2
        simp only [List.mem_cons]
        tauto
      · rw [if_neg h2]
        simp only [List.mem_cons, ih]
        tauto

theorem setInsert_sorted (x : String) : ∀ l : List String,
    List.Pairwise (fun a b => strLt a b = true) l →
    List.Pairwise (fun a b => strLt a b = true) (setInsert x l) := by
  intro l
  induction l with
  | nil => intro _; simp [setInsert]
  | cons h t ih =>
    intro hs
    rw [List.pairwise_cons] at hs
    obtain ⟨hall, ht⟩ := hs
    cases h1 : strLt x h with
    | true =>
      rw [setInsert, if_pos h1, List.pairwise_cons]
      refine ⟨?_, by rw [List.pairwise_cons]; exact ⟨hall, ht⟩⟩
      intro b hb
      rcases List.mem_cons.mp hb with hb | hb
      · subst hb; exact h1
      · exact strLt_trans h1 (hall b hb)
    | false =>
      rw [setInsert, if_neg (by simp [h1])]
      by_cases h2 : x = h
      · rw [if_pos h2, List.pairwise_cons]
        exact ⟨hall, ht⟩
      · rw [if_neg h2, List.pairwise_cons]
        constructor
        · intro b hb
          rcases (mem_setInsert x b t).mp hb with hb | hb
          · rw [hb]
            cases h5 : strLt h x with
            | true => rfl
            | false => exact absurd (strLt_eq_of_not h1 h5) h2
          · exact hall b hb
        · exact ih ht

theorem setInsert_mem_eq (x : String) : ∀ l : List String,
    List.Pairwise (fun a b => strLt a b = true) l → x ∈ l → setInsert x l = l := by
  intro l
  induction l with
  | nil => intro _ hx; exact absurd hx (List.not_mem_nil x)
  | cons h t ih =>
    intro hs hx
    rw [List.pairwise_cons] at hs
    obtain ⟨hall, ht⟩ := hs
    rcases List.mem_cons.mp hx with hx | hx
    · subst hx
      rw [setInsert, if_neg (by simp [strLt_irrefl x]), if_pos rfl]
    · have hlt : strLt h x = true := hall x hx
      have h1 : strLt x h = false := strLt_asymm hlt
      have h2 : x ≠ h := (strLt_ne hlt).symm
      rw [setInsert, if_neg (by simp [h1]), if_neg h2, ih ht hx]

theorem foldIns_mem (xs : List String) : ∀ (s : List String) (y : String),
    (y ∈ xs.foldl (fun acc x => setInsert x acc) s ↔ y ∈ s ∨ y ∈ xs) := by
  induction xs with
  | nil => intro s y; simp
  | cons x rest ih =>
    intro s y
    rw [List.foldl_cons, ih, mem_setInsert]
    simp
    tauto

theorem foldIns_sorted (xs : List String) : ∀ s : List String,
    List.Pairwise (fun a b => strLt a b = true) s →
    List.Pairwise (fun a b => strLt a b = true)
      (xs.foldl (fun acc x => setInsert x acc) s) := by
  induction xs with
  | nil => intro s hs; exact hs
  | cons x rest ih =>
    intro s hs
    rw [List.foldl_cons]
    exact ih _ (setInsert_sorted x s hs)

theorem sortedStr_ext : ∀ l1 l2 : List String,
    List.Pairwise (fun a b => strLt a b = true) l1 →
    List.Pairwise (fun a b => strLt a b = true) l2 →
    (∀ x, x ∈ l1 ↔ x ∈ l2) → l1 = l2 := by
  intro l1
  induction l1 with
  | nil =>
    intro l2 _ _ hm
    cases l2 with
    | nil => rfl
    | cons b t2 => exact absurd ((hm b).mpr (by simp)) (List.not_mem_nil b)
  | cons a t1 ih =>
    intro l2 h1 h2 hm
    cases l2 with
    | nil => exact absurd ((hm a).mp (by simp)) (List.not_mem_nil a)
    | cons b t2 =>
      rw [List.pairwise_cons] at h1 h2
      obtain ⟨ha1, ht1⟩ := h1
      obtain ⟨hb2, ht2⟩ := h2
      have hab : a = b := by
        rcases List.mem_cons.mp ((hm a).mp (by simp)) with h | h
        · exact h
        · rcases List.mem_cons.mp ((hm b).mpr (by simp)) with h3 | h3
          · exact h3.symm
          · -- a ∈ t2 gives b < a; b ∈ t1 gives a < b: contradiction
            have hba : strLt b a = true := hb2 a h
            have hab2 : strLt a b = true := ha1 b h3
            rw [strLt_asymm hab2] at hba
            exact absurd hba Bool.false_ne_true
      subst hab
      have : t1 = t2 := by
        apply ih t2 ht1 ht2
        intro x
        constructor
        · intro hx
          have hax : strLt a x = true := ha1 x hx
          rcases List.mem_cons.mp ((hm x).mp (by simp [hx])) with h | h
          · exact absurd h (strLt_ne hax).symm
          · exact h
        · intro hx
          have hax : strLt a x = true := hb2 x hx
          rcases List.mem_cons.mp ((hm x).mpr (by simp [hx])) with h | h
          · exact absurd h (strLt_ne hax).symm
          · exact h
      rw [this]

/-! ## C5: the combiner -/

theorem setUpdate_ok_of_ne_null (s : List String) (v : JVal) (h : v ≠ JVal.null) :
    setUpdate s v =
      Except.ok ((jvalElems v).foldl (fun acc x => setInsert x acc) s) := by
  cases v with
  | null => exact absurd rfl h
  | str t => rfl
  | strArr a => rfl
  | obj o => rfl

theorem buildFcnSet_mem (files : List (String × JVal)) :
    ∀ (s S : List String), buildFcnSet files s = Except.ok S →
      ∀ y, (y ∈ S ↔ y ∈ s ∨ ∃ f ∈ files, f.1 ≠ urlCacheName ∧ y ∈ jvalElems f.2) := by
  induction files with
  | nil =>
    intro s S h y
    have hs : s = S := by
      have : Except.ok (ε := String) s = Except.ok S := h
      exact Except.ok.inj this
    subst hs
    simp
  | cons f rest ih =>
    intro s S h y
    rw [buildFcnSet] at h
    by_cases hf : f.1 = urlCacheName
    · rw [if_pos hf] at h
      rw [ih s S h y]
      simp only [List.mem_cons]
      constructor
      · rintro (hy | ⟨f2, hf2, hne, hy⟩)
        · exact Or.inl hy
        · exact Or.inr ⟨f2, Or.inr hf2, hne, hy⟩
      · rintro (hy | ⟨f2, hf2 | hf2, hne, hy⟩)
        · exact Or.inl hy
        · exact absurd (hf2 ▸ hf) hne
        · exact Or.inr ⟨f2, hf2, hne, hy⟩
    · rw [if_neg hf] at h
      cases hv : f.2 with
      | null =>
        rw [hv] at h
        simp [setUpdate] at h
      | str t =>
        rw [hv] at h
        replace h : buildFcnSet rest
            ((jvalElems (JVal.str t)).foldl (fun acc x => setInsert x acc) s) =
            Except.ok S := h
        rw [ih _ S h y, foldIns_mem]
        simp only [List.mem_cons]
        constructor
        · rintro ((hy | hy) | ⟨f2, hf2, hne, hy⟩)
          · exact Or.inl hy
          · exact Or.inr ⟨f, Or.inl rfl, hf, by rw [hv]; exact hy⟩
          · exact Or.inr ⟨f2, Or.inr hf2, hne, hy⟩
        · rintro (hy | ⟨f2, hf2 | hf2, hne, hy⟩)
          · exact Or.inl (Or.inl hy)
          · subst hf2
            exact Or.inl (Or.inr (by rw [← hv]; exact hy))
          · exact Or.inr ⟨f2, hf2, hne, hy⟩
      | strArr a =>
        rw [hv] at h
        replace h : buildFcnSet rest
            ((jvalElems (JVal.strArr a)).foldl (fun acc x => setInsert x acc) s) =
            Except.ok S := h
        rw [ih _ S h y, foldIns_mem]
        simp only [List.mem_cons]
        constructor
        · rintro ((hy | hy) | ⟨f2, hf2, hne, hy⟩)
          · exact Or.inl hy
          · exact Or.inr ⟨f, Or.inl rfl, hf, by rw [hv]; exact hy⟩
          · exact Or.inr ⟨f2, Or.inr hf2, hne, hy⟩
        · rintro (hy | ⟨f2, hf2 | hf2, hne, hy⟩)
          · exact Or.inl (Or.inl hy)
          · subst hf2
            exact Or.inl (Or.inr (by rw [← hv]; exact hy))
          · exact Or.inr ⟨f2, hf2, hne, hy⟩
      | obj o =>
        rw [hv] at h
        replace h : buildFcnSet rest
            ((jvalElems (JVal.obj o)).foldl (fun acc x => setInsert x acc) s) =
            Except.ok S := h
        rw [ih _ S h y, foldIns_mem]
        simp only [List.mem_cons]
        constructor
        · rintro ((hy | hy) | ⟨f2, hf2, hne, hy⟩)
          · exact Or.inl hy
          · exact Or.inr ⟨f, Or.inl rfl, hf, by rw [hv]; exact hy⟩
          · exact Or.inr ⟨f2, Or.inr hf2, hne, hy⟩
        · rintro (hy | ⟨f2, hf2 | hf2, hne, hy⟩)
          · exact Or.inl (Or.inl hy)
          · subst hf2
            exact Or.inl (Or.inr (by rw [← hv]; exact hy))
          · exact Or.inr ⟨f2, hf2, hne, hy⟩

theorem buildFcnSet_sorted (files : List (String × JVal)) :
    ∀ (s S : List String),
      List.Pairwise (fun a b => strLt a b = true) s →
      buildFcnSet files s = Except.ok S →
      List.Pairwise (fun a b => strLt a b = true) S := by
  induction files with
  | nil =>
    intro s S hs h
    have heq : s = S := Except.ok.inj (h : Except.ok (ε := String) s = Except.ok S)
    subst heq
    exact hs
  | cons f rest ih =>
    intro s S hs h
    rw [buildFcnSet] at h
    by_cases hf : f.1 = urlCacheName
    · rw [if_pos hf] at h
      exact ih s S hs h
    · rw [if_neg hf] at h
      cases hv : f.2 with
      | null =>
        rw [hv] at h
        simp [setUpdate] at h
      | str t =>
        rw [hv] at h
        exact ih _ S (foldIns_sorted _ s hs) h
      | strArr a =>
        rw [hv] at h
        exact ih _ S (foldIns_sorted _ s hs) h
      | obj o =>
        rw [hv] at h
        exact ih _ S (foldIns_sorted _ s hs) h

theorem dirGet_pyDictInsert_self (d : Dir) (k : String) (v : JVal) :
    dirGet (pyDictInsert d k v) k = some v := by
  induction d with
  | nil =>
    unfold dirGet pyDictInsert
    rw [List.find?_cons_of_pos _ (by simp)]
    rfl
  | cons f rest ih =>
    by_cases hf : f.1 = k
    · simp only [pyDictInsert, if_pos hf]
      unfold dirGet
      rw [List.find?_cons_of_pos _ (by simp)]
      rfl
    · simp only [pyDictInsert, if_neg hf]
      unfold dirGet
      rw [List.find?_cons_of_neg _ (by simp [hf])]
      exact ih

theorem dirGet_pyDictInsert_ne (d : Dir) (k k2 : String) (v : JVal) (h : k2 ≠ k) :
    dirGet (pyDictInsert d k v) k2 = dirGet d k2 := by
  induction d with
  | nil =>
    unfold dirGet pyDictInsert
    rw [List.find?_cons_of_neg _ (by simp [Ne.symm h])]
  | cons f rest ih =>
    by_cases hf : f.1 = k
    · simp only [pyDictInsert, if_pos hf]
      unfold dirGet
      rw [List.find?_cons_of_neg _ (by simp [Ne.symm h]),
        List.find?_cons_of_neg _ (by simp [hf, Ne.symm h])]
    · simp only [pyDictInsert, if_neg hf]
      unfold dirGet
      by_cases h2 : f.1 = k2
      · rw [List.find?_cons_of_pos _ (by simp [h2]),
          List.find?_cons_of_pos _ (by simp [h2])]
      · rw [List.find?_cons_of_neg _ (by simp [h2]),
          List.find?_cons_of_neg _ (by simp [h2])]
        exact ih

theorem lowerLe_total (a b : String) : lowerLe a b ∨ lowerLe b a := by
  unfold lowerLe
  cases h : charListLt (b.data.map Char.toLower) (a.data.map Char.toLower) with
  | false => exact Or.inl rfl
  | true => exact Or.inr (charListLt_asymm _ _ h)

theorem lowerLe_trans (a b c : String) (hab : lowerLe a b) (hbc : lowerLe b c) :
    lowerLe a c := by
  unfold lowerLe at hab hbc ⊢
  cases h : charListLt (c.data.map Char.toLower) (a.data.map Char.toLower) with
  | false => rfl
  | true =>
    exfalso
    cases h2 : charListLt (b.data.map Char.toLower) (c.data.map Char.toLower) with
    | false =>
      have hbec := charListLt_eq_of_not _ _ h2 hbc
      rw [hbec] at hab
      rw [hab] at h
      exact Bool.false_ne_true h
    | true =>
      have h3 := charListLt_trans _ _ _ h2 h
      rw [hab] at h3
      exact Bool.false_ne_true h3

/-- C5: `concatenate_fcns` reads every artifact of the release directory
except the URL cache, unions their contents with exact-string deduplication,
sorts the union case-insensitively ascending, and writes it as
`_combined.JSON`; in particular combining `["Zeta"]` and `["alpha"]` yields
`["alpha", "Zeta"]`. -/
theorem C5_combiner_union_sorted :
    (∀ (d : Dir) (d2 : Dir), concatenate_fcns d = Except.ok d2 →
      ∃ c, dirGet d2 "_combined.JSON" = some (JVal.strArr c) ∧
        (∀ x, x ∈ c ↔ ∃ f ∈ d, f.1 ≠ urlCacheName ∧ x ∈ jvalElems f.2) ∧
        List.Sorted lowerLe c ∧ c.Nodup) ∧
    concatenate_fcns [("A.JSON", JVal.strArr ["Zeta"]), ("B.JSON", JVal.strArr ["alpha"])] =
      Except.ok [("A.JSON", JVal.strArr ["Zeta"]), ("B.JSON", JVal.strArr ["alpha"]),
        ("_combined.JSON", JVal.strArr ["alpha", "Zeta"])] := by
  constructor
  · intro d d2 h
    unfold concatenate_fcns at h
    cases hb : buildFcnSet d [] with
    | error e => rw [hb] at h; exact absurd h (by simp)
    | ok S =>
      rw [hb] at h
      have hd2 : d2 = pyDictInsert d "_combined.JSON"
          (JVal.strArr (List.insertionSort lowerLe S)) := (Except.ok.inj h).symm
      subst hd2
      refine ⟨List.insertionSort lowerLe S, dirGet_pyDictInsert_self d _ _, ?_, ?_, ?_⟩
      · intro x
        rw [(List.perm_insertionSort lowerLe S).mem_iff]
        have := buildFcnSet_mem d [] S hb x
        simpa using this
      · haveI : IsTotal String lowerLe := ⟨lowerLe_total⟩
        haveI : IsTrans String lowerLe := ⟨lowerLe_trans⟩
        exact List.sorted_insertionSort lowerLe S
      · have hS := buildFcnSet_sorted d [] S (by simp) hb
        have hnd : S.Nodup := hS.imp (fun hlt => strLt_ne hlt)
        exact ((List.perm_insertionSort lowerLe S).nodup_iff).mpr hnd
  · rfl

/-- Witness for C5 at the spec's example: combining `["Zeta"]` and
`["alpha"]` yields `["alpha", "Zeta"]`, sorted case-insensitively,
deduplicated, and containing exactly the input strings. -/
theorem C5_combiner_union_sorted_witness :
    dirGet [("A.JSON", JVal.strArr ["Zeta"]), ("B.JSON", JVal.strArr ["alpha"]),
        ("_combined.JSON", JVal.strArr ["alpha", "Zeta"])] "_combined.JSON" =
      some (JVal.strArr ["alpha", "Zeta"]) ∧
    List.Sorted lowerLe ["alpha", "Zeta"] ∧
    (["alpha", "Zeta"] : List String).Nodup := by
  obtain ⟨c, hc1, hc2, hc3, hc4⟩ := C5_combiner_union_sorted.1
    [("A.JSON", JVal.strArr ["Zeta"]), ("B.JSON", JVal.strArr ["alpha"])]
    [("A.JSON", JVal.strArr ["Zeta"]), ("B.JSON", JVal.strArr ["alpha"]),
      ("_combined.JSON", JVal.strArr ["alpha", "Zeta"])]
    C5_combiner_union_sorted.2
  have hc : c = ["alpha", "Zeta"] := by
    have h2 : some (JVal.strArr c) = some (JVal.strArr ["alpha", "Zeta"]) := by
      rw [← hc1]
      rfl
    exact JVal.strArr.inj (Option.some.inj h2)
  subst hc
  exact ⟨hc1, hc3, hc4⟩

/-! ## C9: idempotence of re-running the pipeline -/

theorem pyDictInsert_idem (d : Dir) (k : String) (v : JVal) :
    pyDictInsert (pyDictInsert d k v) k v = pyDictInsert d k v := by
  induction d with
  | nil => simp [pyDictInsert]
  | cons f rest ih =>
    by_cases hf : f.1 = k
    · simp only [pyDictInsert, if_pos hf]
      simp [pyDictInsert]
    · simp only [pyDictInsert, if_neg hf]
      rw [ih]

theorem pyDictInsert_of_get_eq (d : Dir) (k : String) (v : JVal)
    (h : dirGet d k = some v) : pyDictInsert d k v = d := by
  induction d with
  | nil => exact absurd h (by simp [dirGet])
  | cons f rest ih =>
    by_cases hf : f.1 = k
    · have hv : f.2 = v := by
        unfold dirGet at h
        rw [List.find?_cons_of_pos _ (by simp [hf])] at h
        exact Option.some.inj h
      simp only [pyDictInsert, if_pos hf]
      rw [← hf, ← hv]
    · have h2 : dirGet rest k = some v := by
        unfold dirGet at h
        rw [List.find?_cons_of_neg _ (by simp [hf])] at h
        exact h
      simp only [pyDictInsert, if_neg hf]
      rw [ih h2]

theorem applyWrites_get_ne (ws : List (String × JVal)) :
    ∀ (d : Dir) (k : String), k ∉ ws.map Prod.fst →
      dirGet (applyWrites d ws) k = dirGet d k := by
  induction ws with
  | nil => intro d k _; rfl
  | cons w rest ih =>
    intro d k hk
    simp only [List.map_cons, List.mem_cons] at hk
    push_neg at hk
    rw [applyWrites_cons, ih _ k hk.2, dirGet_pyDictInsert_ne _ _ _ _ hk.1]

theorem applyWrites_idem (ws : List (String × JVal)) :
    ∀ d : Dir, (ws.map Prod.fst).Nodup →
      applyWrites (applyWrites d ws) ws = applyWrites d ws := by
  induction ws with
  | nil => intro d _; rfl
  | cons w rest ih =>
    intro d hnd
    simp only [List.map_cons, List.nodup_cons] at hnd
    obtain ⟨hw, hndr⟩ := hnd
    rw [applyWrites_cons, applyWrites_cons]
    have hget : dirGet (applyWrites (pyDictInsert d w.1 w.2) rest) w.1 = some w.2 := by
      rw [applyWrites_get_ne rest _ w.1 hw, dirGet_pyDictInsert_self]
    rw [pyDictInsert_of_get_eq _ _ _ hget]
    exact ih _ hndr

theorem applyWrites_get_of_mem_null (ws : List (String × JVal)) :
    ∀ (d : Dir) (k : String), k ∈ ws.map Prod.fst → (∀ w ∈ ws, w.2 = JVal.null) →
      dirGet (applyWrites d ws) k = some JVal.null := by
  induction ws with
  | nil => intro d k hk _; exact absurd hk (by simp)
  | cons w rest ih =>
    intro d k hk hnull
    by_cases hkr : k ∈ rest.map Prod.fst
    · rw [applyWrites_cons]
      exact ih _ k hkr (fun q hq => hnull q (by simp [hq]))
    · have hkw : k = w.1 := by
        simp only [List.map_cons, List.mem_cons] at hk
        rcases hk with h | h
        · exact h
        · exact absurd h hkr
      rw [applyWrites_cons, applyWrites_get_ne rest _ k hkr, hkw,
        dirGet_pyDictInsert_self]
      have := hnull w (by simp)
      rw [this]

theorem dirGet_mem (d : Dir) (k : String) (v : JVal) (h : dirGet d k = some v) :
    (k, v) ∈ d := by
  unfold dirGet at h
  cases hf : d.find? (fun f => f.1 = k) with
  | none => rw [hf] at h; exact absurd h (by simp)
  | some p =>
    rw [hf] at h
    have hp2 : p.2 = v := Option.some.inj h
    have hp1 : p.1 = k := by
      have := List.find?_some hf
      simpa using this
    have hpm : p ∈ d := List.mem_of_find?_eq_some hf
    rw [← hp1, ← hp2]
    simpa using hpm

theorem pyDictInsert_keys_sub (d : Dir) (k : String) (v : JVal) :
    ∀ x, x ∈ (pyDictInsert d k v).map Prod.fst → x = k ∨ x ∈ d.map Prod.fst := by
  induction d with
  | nil => intro x hx; simp [pyDictInsert] at hx; exact Or.inl hx
  | cons f rest ih =>
    intro x hx
    by_cases hf : f.1 = k
    · simp only [pyDictInsert, if_pos hf, List.map_cons, List.mem_cons] at hx
      rcases hx with hx | hx
      · exact Or.inl hx
      · exact Or.inr (by simp [hx])
    · simp only [pyDictInsert, if_neg hf, List.map_cons, List.mem_cons] at hx
      rcases hx with hx | hx
      · exact Or.inr (by simp [hx])
      · rcases ih x hx with h | h
        · exact Or.inl h
        · exact Or.inr (by simp [h])

theorem pyDictInsert_keys_nodup (d : Dir) (k : String) (v : JVal)
    (h : (d.map Prod.fst).Nodup) : ((pyDictInsert d k v).map Prod.fst).Nodup := by
  induction d with
  | nil => simp [pyDictInsert]
  | cons f rest ih =>
    simp only [List.map_cons, List.nodup_cons] at h
    obtain ⟨hf1, hndr⟩ := h
    by_cases hf : f.1 = k
    · simp only [pyDictInsert, if_pos hf, List.map_cons, List.nodup_cons]
      exact ⟨hf ▸ hf1, hndr⟩
    · simp only [pyDictInsert, if_neg hf, List.map_cons, List.nodup_cons]
      refine ⟨?_, ih hndr⟩
      intro hcon
      rcases pyDictInsert_keys_sub rest k v f.1 hcon with h | h
      · exact hf h
      · exact hf1 h

theorem mem_pyDictInsert (d : Dir) (k : String) (v : JVal)
    (hnd : (d.map Prod.fst).Nodup) :
    ∀ f, (f ∈ pyDictInsert d k v ↔ (f ∈ d ∧ f.1 ≠ k) ∨ f = (k, v)) := by
  induction d with
  | nil => intro f; simp [pyDictInsert]
  | cons g rest ih =>
    intro f
    simp only [List.map_cons, List.nodup_cons] at hnd
    obtain ⟨hg, hndr⟩ := hnd
    by_cases hf : g.1 = k
    · simp only [pyDictInsert, if_pos hf, List.mem_cons]
      constructor
      · rintro (h | h)
        · exact Or.inr h
        · have hne : f.1 ≠ k := by
            intro he
            apply hg
            rw [hf, ← he]
            exact List.mem_map_of_mem Prod.fst h
          exact Or.inl ⟨Or.inr h, hne⟩
      · rintro (⟨hm | hm, hne⟩ | h)
        · exact absurd (hm ▸ hf : f.1 = k) hne
        · exact Or.inr hm
        · exact Or.inl h
    · simp only [pyDictInsert, if_neg hf, List.mem_cons, ih hndr f]
      constructor
      · rintro (h | ⟨⟨hm, hne⟩ | h⟩)
        · exact Or.inl ⟨Or.inl h, by rw [h]; exact hf⟩
        · exact Or.inl ⟨Or.inr hm, hne⟩
        · exact Or.inr h
      · rintro (⟨hm | hm, hne⟩ | h)
        · exact Or.inl hm
        · exact Or.inr (Or.inl ⟨hm, hne⟩)
        · exact Or.inr (Or.inr h)

theorem foldInsert_keys_nodup (items : List (String × JVal)) :
    ∀ acc : List (String × JVal), (acc.map Prod.fst).Nodup →
      ((items.foldl (fun d kv => pyDictInsert d kv.1 kv.2) acc).map Prod.fst).Nodup := by
  induction items with
  | nil => intro acc h; exact h
  | cons kv rest ih =>
    intro acc h
    rw [List.foldl_cons]
    exact ih _ (pyDictInsert_keys_nodup acc kv.1 kv.2 h)

theorem load_URL_dict_go_nodup (groups : List (String × JVal)) :
    ∀ (acc tbs : List (String × JVal)), (acc.map Prod.fst).Nodup →
      load_URL_dict_go groups acc = Except.ok tbs → (tbs.map Prod.fst).Nodup := by
  induction groups with
  | nil =>
    intro acc tbs h heq
    have h2 : acc = tbs := Except.ok.inj heq
    exact h2 ▸ h
  | cons g rest ih =>
    intro acc tbs h heq
    rw [load_URL_dict_go] at heq
    cases hv : g.2 with
    | obj items =>
      rw [hv] at heq
      exact ih _ tbs (foldInsert_keys_nodup items acc h) heq
    | null => rw [hv] at heq; exact absurd heq (by simp)
    | str t => rw [hv] at heq; exact absurd heq (by simp)
    | strArr a => rw [hv] at heq; exact absurd heq (by simp)

theorem load_URL_dict_nodup (cache : JVal) (tbs : List (String × JVal))
    (h : load_URL_dict cache = Except.ok tbs) : (tbs.map Prod.fst).Nodup := by
  cases cache with
  | obj groups => exact load_URL_dict_go_nodup groups [] tbs (by simp) h
  | null => exact absurd h (by simp [load_URL_dict])
  | str t => exact absurd h (by simp [load_URL_dict])
  | strArr a => exact absurd h (by simp [load_URL_dict])

theorem loopWrites_null (fetch : String → FetchOutcome) (bl : List String) :
    ∀ tbs, ∀ w ∈ loopWrites fetch bl tbs, w.2 = JVal.null := by
  intro tbs
  induction tbs with
  | nil => intro w hw; simp [loopWrites] at hw
  | cons p rest ih =>
    intro w hw
    obtain ⟨tb, url⟩ := p
    cases url with
    | str u =>
      cases hf : fetch u with
      | ok raw =>
        by_cases hr : raw.isEmpty
        · simp only [loopWrites, hf, hr, if_true] at hw
          exact ih w hw
        · simp only [loopWrites, hf, hr, Bool.false_eq_true, if_false,
            List.mem_cons] at hw
          rcases hw with h | h
          · rw [h]
            rfl
          · exact ih w h
      | timeout =>
        simp only [loopWrites, hf] at hw
        exact ih w hw
      | connectError =>
        simp only [loopWrites, hf] at hw
        exact ih w hw
    | null => simp [loopWrites] at hw
    | strArr a => simp [loopWrites] at hw
    | obj o => simp [loopWrites] at hw

theorem loopWrites_keys_sublist (fetch : String → FetchOutcome) (bl : List String) :
    ∀ tbs : List (String × JVal),
      List.Sublist ((loopWrites fetch bl tbs).map Prod.fst)
        (tbs.map (fun p => p.1 ++ ".JSON")) := by
  intro tbs
  induction tbs with
  | nil => simp [loopWrites]
  | cons p rest ih =>
    obtain ⟨tb, url⟩ := p
    cases url with
    | str u =>
      cases hf : fetch u with
      | ok raw =>
        by_cases hr : raw.isEmpty
        · simp only [loopWrites, hf, hr, if_true, List.map_cons]
          exact ih.cons _
        · simp only [loopWrites, hf, hr, Bool.false_eq_true, if_false,
            List.map_cons]
          exact List.Sublist.cons₂ _ ih
      | timeout =>
        simp only [loopWrites, hf, List.map_cons]
        exact ih.cons _
      | connectError =>
        simp only [loopWrites, hf, List.map_cons]
        exact ih.cons _
    | null => simp [loopWrites]
    | strArr a => simp [loopWrites]
    | obj o => simp [loopWrites]

theorem append_right_inj (t : String) (a b : String) (h : a ++ t = b ++ t) :
    a = b := by
  apply String.ext
  have h2 : (a ++ t).data = (b ++ t).data := by rw [h]
  rw [String.data_append, String.data_append] at h2
  exact List.append_cancel_right h2

theorem loopWrites_keys_nodup (fetch : String → FetchOutcome) (bl : List String)
    (tbs : List (String × JVal)) (h : (tbs.map Prod.fst).Nodup) :
    ((loopWrites fetch bl tbs).map Prod.fst).Nodup := by
  have hsub := loopWrites_keys_sublist fetch bl tbs
  have hinj : Function.Injective (fun s : String => s ++ ".JSON") :=
    fun a b hab => append_right_inj ".JSON" a b hab
  have hnd2 : ((tbs.map Prod.fst).map (fun s : String => s ++ ".JSON")).Nodup :=
    h.map hinj
  rw [List.map_map] at hnd2
  exact hnd2.sublist hsub

theorem buildFcnSet_ok_no_null (files : List (String × JVal)) :
    ∀ (s S : List String), buildFcnSet files s = Except.ok S →
      ∀ f ∈ files, f.1 ≠ urlCacheName → f.2 ≠ JVal.null := by
  induction files with
  | nil => intro s S h f hf; exact absurd hf (by simp)
  | cons g rest ih =>
    intro s S h f hf hfc
    rw [buildFcnSet] at h
    rcases List.mem_cons.mp hf with hfg | hfr
    · subst hfg
      rw [if_neg hfc] at h
      intro hnull
      rw [hnull] at h
      simp [setUpdate] at h
    · by_cases hg : g.1 = urlCacheName
      · rw [if_pos hg] at h
        exact ih s S h f hfr hfc
      · rw [if_neg hg] at h
        cases hv : g.2 with
        | null => rw [hv] at h; simp [setUpdate] at h
        | str t => rw [hv] at h; exact ih _ S h f hfr hfc
        | strArr a => rw [hv] at h; exact ih _ S h f hfr hfc
        | obj o => rw [hv] at h; exact ih _ S h f hfr hfc

theorem buildFcnSet_ok_of_no_null (files : List (String × JVal)) :
    ∀ s : List String, (∀ f ∈ files, f.1 ≠ urlCacheName → f.2 ≠ JVal.null) →
      ∃ S, buildFcnSet files s = Except.ok S := by
  induction files with
  | nil => intro s _; exact ⟨s, rfl⟩
  | cons g rest ih =>
    intro s hno
    rw [buildFcnSet]
    by_cases hg : g.1 = urlCacheName
    · rw [if_pos hg]
      exact ih s (fun f hf => hno f (by simp [hf]))
    · rw [if_neg hg]
      have hnn : g.2 ≠ JVal.null := hno g (by simp) hg
      rw [setUpdate_ok_of_ne_null s g.2 hnn]
      exact ih _ (fun f hf => hno f (by simp [hf]))

theorem scraping_pipeline_no_cache (fetch : String → FetchOutcome) (bl : List String)
    (d : Dir) (h : dirGet d urlCacheName = none) :
    scraping_pipeline fetch bl d = ⟨d, false⟩ := by
  simp only [scraping_pipeline, h]

theorem scraping_pipeline_load_error (fetch : String → FetchOutcome) (bl : List String)
    (d : Dir) (cache : JVal) (e : String)
    (h1 : dirGet d urlCacheName = some cache)
    (h2 : load_URL_dict cache = Except.error e) :
    scraping_pipeline fetch bl d = ⟨d, false⟩ := by
  simp only [scraping_pipeline, h1, h2]

theorem scraping_pipeline_crash (fetch : String → FetchOutcome) (bl : List String)
    (d : Dir) (cache : JVal) (tbs : List (String × JVal)) (e : String)
    (h1 : dirGet d urlCacheName = some cache)
    (h2 : load_URL_dict cache = Except.ok tbs)
    (h3 : loopCrash tbs = some e) :
    scraping_pipeline fetch bl d = ⟨applyWrites d (loopWrites fetch bl tbs), false⟩ := by
  simp only [scraping_pipeline, h1, h2, pipelineLoop_eq, h3]

theorem scraping_pipeline_concat_error (fetch : String → FetchOutcome) (bl : List String)
    (d : Dir) (cache : JVal) (tbs : List (String × JVal)) (e : String)
    (h1 : dirGet d urlCacheName = some cache)
    (h2 : load_URL_dict cache = Except.ok tbs)
    (h3 : loopCrash tbs = none)
    (h4 : concatenate_fcns (applyWrites d (loopWrites fetch bl tbs)) = Except.error e) :
    scraping_pipeline fetch bl d = ⟨applyWrites d (loopWrites fetch bl tbs), true⟩ := by
  simp only [scraping_pipeline, h1, h2, pipelineLoop_eq, h3, h4]

theorem scraping_pipeline_concat_ok (fetch : String → FetchOutcome) (bl : List String)
    (d : Dir) (cache : JVal) (tbs : List (String × JVal)) (d2 : Dir)
    (h1 : dirGet d urlCacheName = some cache)
    (h2 : load_URL_dict cache = Except.ok tbs)
    (h3 : loopCrash tbs = none)
    (h4 : concatenate_fcns (applyWrites d (loopWrites fetch bl tbs)) = Except.ok d2) :
    scraping_pipeline fetch bl d = ⟨d2, true⟩ := by
  simp only [scraping_pipeline, h1, h2, pipelineLoop_eq, h3, h4]

theorem concatenate_fcns_of_build_ok (d : Dir) (S : List String)
    (h : buildFcnSet d [] = Except.ok S) :
    concatenate_fcns d = Except.ok
      (pyDictInsert d "_combined.JSON" (JVal.strArr (List.insertionSort lowerLe S))) := by
  simp only [concatenate_fcns, h]

theorem concatenate_fcns_of_build_error (d : Dir) (e : String)
    (h : buildFcnSet d [] = Except.error e) :
    concatenate_fcns d = Except.error e := by
  simp only [concatenate_fcns, h]

/-- C9 (amended): re-running the pipeline for the same release with
unchanged source content (the same fetch oracle and blacklist) reproduces
the first run's directory whenever the interpreter's set-iteration order is
reproduced — the model fixes that order canonically, and under it every
per-toolbox artifact and the combined artifact after the second run are
identical to those after the first, whatever the first run's outcome
(missing cache, mid-loop abort, combiner error, or success, in which case
the combiner re-reads its own prior combined artifact without changing the
combined set).  Across real runs the combined artifact is guaranteed
identical only up to the relative order of case-insensitively-equal names:
hash randomization can permute them (see the C9 counterexample). -/
theorem C9_rerun_idempotent (fetch : String → FetchOutcome) (bl : List String) (d : Dir)
    (hnd : (d.map Prod.fst).Nodup) :
    (scraping_pipeline fetch bl (scraping_pipeline fetch bl d).dir).dir =
      (scraping_pipeline fetch bl d).dir := by
  cases hc : dirGet d urlCacheName with
  | none =>
    rw [scraping_pipeline_no_cache fetch bl d hc]
    show (scraping_pipeline fetch bl d).dir = d
    rw [scraping_pipeline_no_cache fetch bl d hc]
  | some cache =>
    cases hl : load_URL_dict cache with
    | error e =>
      rw [scraping_pipeline_load_error fetch bl d cache e hc hl]
      show (scraping_pipeline fetch bl d).dir = d
      rw [scraping_pipeline_load_error fetch bl d cache e hc hl]
    | ok tbs =>
      have htnd : (tbs.map Prod.fst).Nodup := load_URL_dict_nodup cache tbs hl
      have hWnd : ((loopWrites fetch bl tbs).map Prod.fst).Nodup :=
        loopWrites_keys_nodup fetch bl tbs htnd
      have hWnull := loopWrites_null fetch bl tbs
      cases hcr : loopCrash tbs with
      | some e =>
        rw [scraping_pipeline_crash fetch bl d cache tbs e hc hl hcr]
        show (scraping_pipeline fetch bl (applyWrites d (loopWrites fetch bl tbs))).dir =
          applyWrites d (loopWrites fetch bl tbs)
        by_cases hck : urlCacheName ∈ (loopWrites fetch bl tbs).map Prod.fst
        · have hg2 : dirGet (applyWrites d (loopWrites fetch bl tbs)) urlCacheName =
              some JVal.null :=
            applyWrites_get_of_mem_null _ _ _ hck hWnull
          rw [scraping_pipeline_load_error fetch bl _ JVal.null
            "AttributeError: keys" hg2 rfl]
        · have hg2 : dirGet (applyWrites d (loopWrites fetch bl tbs)) urlCacheName =
              some cache := by
            rw [applyWrites_get_ne _ _ _ hck, hc]
          rw [scraping_pipeline_crash fetch bl _ cache tbs e hg2 hl hcr,
            applyWrites_idem _ _ hWnd]
      | none =>
        cases hcc : concatenate_fcns (applyWrites d (loopWrites fetch bl tbs)) with
        | error e =>
          rw [scraping_pipeline_concat_error fetch bl d cache tbs e hc hl hcr hcc]
          show (scraping_pipeline fetch bl (applyWrites d (loopWrites fetch bl tbs))).dir =
            applyWrites d (loopWrites fetch bl tbs)
          by_cases hck : urlCacheName ∈ (loopWrites fetch bl tbs).map Prod.fst
          · have hg2 : dirGet (applyWrites d (loopWrites fetch bl tbs)) urlCacheName =
                some JVal.null :=
              applyWrites_get_of_mem_null _ _ _ hck hWnull
            rw [scraping_pipeline_load_error fetch bl _ JVal.null
              "AttributeError: keys" hg2 rfl]
          · have hg2 : dirGet (applyWrites d (loopWrites fetch bl tbs)) urlCacheName =
                some cache := by
              rw [applyWrites_get_ne _ _ _ hck, hc]
            have hcc2 : concatenate_fcns
                (applyWrites (applyWrites d (loopWrites fetch bl tbs))
                  (loopWrites fetch bl tbs)) = Except.error e := by
              rw [applyWrites_idem _ _ hWnd]
              exact hcc
            rw [scraping_pipeline_concat_error fetch bl _ cache tbs e hg2 hl hcr hcc2,
              applyWrites_idem _ _ hWnd]
        | ok d2 =>
          cases hb : buildFcnSet (applyWrites d (loopWrites fetch bl tbs)) [] with
          | error e =>
            rw [concatenate_fcns_of_build_error _ _ hb] at hcc
            exact absurd hcc (by simp)
          | ok S =>
            have hd2 : d2 = pyDictInsert (applyWrites d (loopWrites fetch bl tbs))
                "_combined.JSON" (JVal.strArr (List.insertionSort lowerLe S)) := by
              have h5 := concatenate_fcns_of_build_ok _ _ hb
              rw [hcc] at h5
              exact Except.ok.inj h5
            rw [scraping_pipeline_concat_ok fetch bl d cache tbs d2 hc hl hcr hcc]
            show (scraping_pipeline fetch bl d2).dir = d2
            by_cases hck : urlCacheName ∈ (loopWrites fetch bl tbs).map Prod.fst
            · have hg1 : dirGet (applyWrites d (loopWrites fetch bl tbs)) urlCacheName =
                  some JVal.null :=
                applyWrites_get_of_mem_null _ _ _ hck hWnull
              have hg2 : dirGet d2 urlCacheName = some JVal.null := by
                rw [hd2, dirGet_pyDictInsert_ne _ _ _ _ (by decide)]
                exact hg1
              rw [scraping_pipeline_load_error fetch bl d2 JVal.null
                "AttributeError: keys" hg2 rfl]
            · have hWnil : loopWrites fetch bl tbs = [] := by
                cases hW : loopWrites fetch bl tbs with
                | nil => rfl
                | cons w ws =>
                  exfalso
                  have hk : w.1 ∈ (loopWrites fetch bl tbs).map Prod.fst := by
                    rw [hW]; simp
                  have hknc : w.1 ≠ urlCacheName := fun he => hck (he ▸ hk)
                  have hnull : dirGet (applyWrites d (loopWrites fetch bl tbs)) w.1 =
                      some JVal.null :=
                    applyWrites_get_of_mem_null _ _ _ hk hWnull
                  have hmem : (w.1, JVal.null) ∈ applyWrites d (loopWrites fetch bl tbs) :=
                    dirGet_mem _ _ _ hnull
                  exact buildFcnSet_ok_no_null _ _ _ hb (w.1, JVal.null) hmem hknc rfl
              rw [hWnil] at hb hd2
              rw [applyWrites_nil] at hb hd2
              have hg2 : dirGet d2 urlCacheName = some cache := by
                rw [hd2, dirGet_pyDictInsert_ne _ _ _ _ (by decide)]
                exact hc
              have hnd2 : (d2.map Prod.fst).Nodup := by
                rw [hd2]
                exact pyDictInsert_keys_nodup _ _ _ hnd
              have hno2 : ∀ f ∈ d2, f.1 ≠ urlCacheName → f.2 ≠ JVal.null := by
                intro f hf hfc
                rw [hd2] at hf
                rcases (mem_pyDictInsert d _ _ hnd f).mp hf with ⟨hm, hne⟩ | hfe
                · exact buildFcnSet_ok_no_null d [] S hb f hm hfc
                · rw [hfe]; simp
              obtain ⟨S2, hb2⟩ := buildFcnSet_ok_of_no_null d2 [] hno2
              have hS2 : S2 = S := by
                apply sortedStr_ext S2 S (buildFcnSet_sorted d2 [] S2 (by simp) hb2)
                  (buildFcnSet_sorted d [] S (by simp) hb)
                intro x
                rw [buildFcnSet_mem d2 [] S2 hb2 x]
                have hSm := buildFcnSet_mem d [] S hb x
                simp only [List.not_mem_nil, false_or] at hSm ⊢
                constructor
                · rintro ⟨f, hf, hfc, hx⟩
                  rw [hd2] at hf
                  rcases (mem_pyDictInsert d _ _ hnd f).mp hf with ⟨hm, hne⟩ | hfe
                  · exact hSm.mpr ⟨f, hm, hfc, hx⟩
                  · rw [hfe] at hx
                    have hx2 : x ∈ List.insertionSort lowerLe S := hx
                    exact (List.perm_insertionSort lowerLe S).mem_iff.mp hx2
                · intro hxS
                  rcases hSm.mp hxS with ⟨f, hm, hfc, hx⟩
                  by_cases hfcomb : f.1 = "_combined.JSON"
                  · refine ⟨("_combined.JSON",
                      JVal.strArr (List.insertionSort lowerLe S)), ?_,
                      show ("_combined.JSON" : String) ≠ urlCacheName by decide, ?_⟩
                    · rw [hd2]
                      exact (mem_pyDictInsert d _ _ hnd _).mpr (Or.inr rfl)
                    · show x ∈ List.insertionSort lowerLe S
                      exact (List.perm_insertionSort lowerLe S).mem_iff.mpr hxS
                  · refine ⟨f, ?_, hfc, hx⟩
                    rw [hd2]
                    exact (mem_pyDictInsert d _ _ hnd f).mpr (Or.inl ⟨hm, hfcomb⟩)
              have hconc2 : concatenate_fcns d2 = Except.ok d2 := by
                rw [concatenate_fcns_of_build_ok d2 S2 hb2, hS2]
                rw [hd2, pyDictInsert_idem]
              rw [scraping_pipeline_concat_ok fetch bl d2 cache tbs d2 hg2 hl hcr
                (by rw [hWnil, applyWrites_nil]; exact hconc2)]

/-- Witness for C9 on a concrete one-toolbox release directory whose fetch
returns no functions: the rerun reproduces the first run's directory. -/
theorem C9_rerun_idempotent_witness :
    (scraping_pipeline (fun _ => FetchOutcome.ok []) []
      ((scraping_pipeline (fun _ => FetchOutcome.ok []) []
        [("_url_cache.JSON", JVal.obj [("Fam", JVal.obj [("Tb", JVal.str "u")])])]).dir)).dir =
      (scraping_pipeline (fun _ => FetchOutcome.ok []) []
        [("_url_cache.JSON", JVal.obj [("Fam", JVal.obj [("Tb", JVal.str "u")])])]).dir :=
  C9_rerun_idempotent (fun _ => FetchOutcome.ok []) []
    [("_url_cache.JSON", JVal.obj [("Fam", JVal.obj [("Tb", JVal.str "u")])])]
    (by decide)

/-- C9 counterexample: byte-for-byte idempotence of the combined artifact
fails on the program.  Over artifacts `["Zeta"]` and `["zeta"]` the union
set is the two-element set with both spellings; the two admissible
set-iteration orders (each a permutation of the canonical listing produced
by `buildFcnSet`) are tied under the `str.lower` key, so the stable sort
leaves each enumeration as it came, and the two runs write combined
artifacts that differ byte-for-byte. -/
theorem C9_counterexample_tie_order_not_reproducible :
    List.Perm (["Zeta", "zeta"] : List String) ["zeta", "Zeta"] ∧
    buildFcnSet [("A.JSON", JVal.strArr ["Zeta"]), ("B.JSON", JVal.strArr ["zeta"])] [] =
      Except.ok ["Zeta", "zeta"] ∧
    concatenate_fcns_enum
      [("A.JSON", JVal.strArr ["Zeta"]), ("B.JSON", JVal.strArr ["zeta"])]
      ["Zeta", "zeta"] =
      Except.ok [("A.JSON", JVal.strArr ["Zeta"]), ("B.JSON", JVal.strArr ["zeta"]),
        ("_combined.JSON", JVal.strArr ["Zeta", "zeta"])] ∧
    concatenate_fcns_enum
      [("A.JSON", JVal.strArr ["Zeta"]), ("B.JSON", JVal.strArr ["zeta"])]
      ["zeta", "Zeta"] =
      Except.ok [("A.JSON", JVal.strArr ["Zeta"]), ("B.JSON", JVal.strArr ["zeta"]),
        ("_combined.JSON", JVal.strArr ["zeta", "Zeta"])] ∧
    (["Zeta", "zeta"] : List String) ≠ ["zeta", "Zeta"] :=
  ⟨by decide, rfl, rfl, rfl, by decide⟩
